import Mathlib

/-!
Shallow embedding of the `uidtree` / `bplustree` on-disk B+Tree
(`src/uidtree/serializer.py`, `entry.py`, `node.py`, `tree.py`,
`src/bplustree/memory.py`) and proofs about its claims.

Bytes are modelled as `List Nat` (each element a byte value); machine
integers are `Nat` with explicit bounds where Python's `int.to_bytes`
would overflow.  Fallible code returns `Option`/`Except`.
-/

namespace UidTree

/-! ## Structural constants (`src/bplustree/const.py`) -/

def PAGE_REFERENCE_BYTES : Nat := 4
def NODE_TYPE_BYTES : Nat := 1
def USED_PAGE_LENGTH_BYTES : Nat := 3
def USED_KEY_LENGTH_BYTES : Nat := 2
def USED_VALUE_LENGTH_BYTES : Nat := 2
def FRAME_TYPE_BYTES : Nat := 1
def OTHERS_BYTES : Nat := 4

/-- `TreeConf` from `src/uidtree/tree.py` (`page_size`, `order`,
`key_size`, `value_size`; the serializer is the fixed little-endian
integer one of `src/uidtree/serializer.py`). -/
structure TreeConf where
  pageSize : Nat
  order : Nat
  keySize : Nat
  valueSize : Nat
  deriving Repr, DecidableEq

/-! ## Serializer (`src/uidtree/serializer.py`)

`serialize(obj, key_size) = obj.to_bytes(key_size, 'little')` and
`deserialize(data) = int.from_bytes(data, 'little')`.  `to_bytes`
raises `OverflowError` when `obj ≥ 256 ^ size`; theorems therefore
carry representability hypotheses. -/

def serialize : Nat → Nat → List Nat
  | _, 0 => []
  | v, n + 1 => v % 256 :: serialize (v / 256) n

/-- `int.to_bytes(v, size, 'little')` written with the value first in
`serialize`; the Python signature is `serialize(obj, key_size)`. -/
def serializeBytes (v size : Nat) : List Nat := serialize v size

def deserialize (data : List Nat) : Nat :=
  data.foldr (fun b acc => b + 256 * acc) 0

/-! ## Entry codec (`src/uidtree/entry.py`)

A `Record` (decoded form) holds `key`, `value` (None or bytes) and
`overflow_page` (None or a page number).  A `Reference` holds
`key`, `before`, `after`.  Lazy loading is resolved: we model the
decoded state. -/

structure RecordE where
  key : Nat
  value : Option (List Nat)
  overflowPage : Option Nat
  deriving Repr, DecidableEq

structure RefE where
  key : Nat
  before : Nat
  after : Nat
  deriving Repr, DecidableEq

/-- `Record.length = USED_KEY_LENGTH_BYTES + key_size +
USED_VALUE_LENGTH_BYTES + value_size + PAGE_REFERENCE_BYTES`. -/
def recordLength (conf : TreeConf) : Nat :=
  USED_KEY_LENGTH_BYTES + conf.keySize + USED_VALUE_LENGTH_BYTES +
    conf.valueSize + PAGE_REFERENCE_BYTES

/-- `Reference.length = 2 * PAGE_REFERENCE_BYTES + USED_KEY_LENGTH_BYTES
+ key_size`. -/
def refLength (conf : TreeConf) : Nat :=
  2 * PAGE_REFERENCE_BYTES + USED_KEY_LENGTH_BYTES + conf.keySize

/-- Python truthiness of an optional page number (`None` and `0` are
falsy). -/
def optTruthy : Option Nat → Bool
  | none => false
  | some n => n != 0

/-- `Record.dump` (`src/uidtree/entry.py`): key length prefix, padded
key, value length prefix, padded value, overflow page;
`overflow_page = self._overflow_page or 0`, `value = b"" if
overflow_page else self._value` (a `Record` built by the tree always
has a bytes value when `overflow_page` is falsy). -/
def recordDump (conf : TreeConf) (r : RecordE) : List Nat :=
  let keyAsBytes := serializeBytes r.key conf.keySize
  let usedKeyLength := keyAsBytes.length
  let overflowPage := (r.overflowPage).getD 0
  let value := if optTruthy r.overflowPage then [] else (r.value).getD []
  let usedValueLength := value.length
  serialize usedKeyLength USED_VALUE_LENGTH_BYTES ++
    keyAsBytes ++ List.replicate (conf.keySize - usedKeyLength) 0 ++
    serialize usedValueLength USED_VALUE_LENGTH_BYTES ++
    value ++ List.replicate (conf.valueSize - usedValueLength) 0 ++
    serialize overflowPage PAGE_REFERENCE_BYTES

/-- `Record.load`: reads the key-length prefix, the key, the
value-length prefix, then either an overflow page (value becomes
`None`) or the inline value slice. -/
def recordLoad (conf : TreeConf) (data : List Nat) : RecordE :=
  let endUsedKeyLength := USED_KEY_LENGTH_BYTES
  let usedKeyLength := deserialize (data.take endUsedKeyLength)
  let key := deserialize ((data.drop endUsedKeyLength).take usedKeyLength)
  let startUsedValueLength := endUsedKeyLength + conf.keySize
  let usedValueLength :=
    deserialize ((data.drop startUsedValueLength).take USED_VALUE_LENGTH_BYTES)
  let endUsedValueLength := startUsedValueLength + USED_VALUE_LENGTH_BYTES
  let startOverflow := endUsedValueLength + conf.valueSize
  let overflowPage :=
    deserialize ((data.drop startOverflow).take PAGE_REFERENCE_BYTES)
  if overflowPage ≠ 0 then
    { key := key, value := none, overflowPage := some overflowPage }
  else
    { key := key,
      value := some ((data.drop endUsedValueLength).take usedValueLength),
      overflowPage := none }

/-- `Reference.dump`: before page, key length prefix, padded key,
after page. -/
def refDump (conf : TreeConf) (f : RefE) : List Nat :=
  let keyAsBytes := serializeBytes f.key conf.keySize
  let usedKeyLength := keyAsBytes.length
  serialize f.before PAGE_REFERENCE_BYTES ++
    serialize usedKeyLength USED_VALUE_LENGTH_BYTES ++
    keyAsBytes ++ List.replicate (conf.keySize - usedKeyLength) 0 ++
    serialize f.after PAGE_REFERENCE_BYTES

/-- `Reference.load`. -/
def refLoad (conf : TreeConf) (data : List Nat) : RefE :=
  let endBefore := PAGE_REFERENCE_BYTES
  let before := deserialize (data.take endBefore)
  let endUsedKeyLength := endBefore + USED_KEY_LENGTH_BYTES
  let usedKeyLength :=
    deserialize ((data.drop endBefore).take USED_KEY_LENGTH_BYTES)
  let key := deserialize ((data.drop endUsedKeyLength).take usedKeyLength)
  let startAfter := endUsedKeyLength + conf.keySize
  let after := deserialize ((data.drop startAfter).take PAGE_REFERENCE_BYTES)
  { key := key, before := before, after := after }

/-! ## WAL (`src/bplustree/memory.py`, class `WAL`)

A WAL file is its 4-byte page-size header followed by frames.  We model
the sequence of well-formed frames in the file; `scanFrames` mirrors
`_load_wal`/`_load_next_frame`/`_index_frame`, tracking the byte offset
exactly as the file cursor does (every PAGE frame carries `page_size`
bytes of payload, which `set_page` enforces on write). -/

inductive Frame where
  | page (pno : Nat)
  | commit
  | rollback
  deriving Repr, DecidableEq

def FRAME_HEADER_LENGTH : Nat := FRAME_TYPE_BYTES + PAGE_REFERENCE_BYTES

/-- Total bytes a frame occupies in the WAL file. -/
def frameSize (pageSize : Nat) : Frame → Nat
  | .page _ => FRAME_HEADER_LENGTH + pageSize
  | _ => FRAME_HEADER_LENGTH

/-- A Python dict `page_number → offset`, as a function. -/
def PageIndex : Type := Nat → Option Nat

def emptyIndex : PageIndex := fun _ => none

def updateIndex (idx : PageIndex) (p off : Nat) : PageIndex :=
  fun q => if q = p then some off else idx q

/-- `dict.update`: entries of `nc` win over entries of `c`. -/
def mergeIndex (c nc : PageIndex) : PageIndex :=
  fun q => match nc q with
    | some o => some o
    | none => c q

structure WalIndexes where
  committed : PageIndex
  notCommitted : PageIndex

/-- `WAL._index_frame`. -/
def indexFrame (st : WalIndexes) (f : Frame) (pageStart : Nat) : WalIndexes :=
  match f with
  | .page p => { st with notCommitted := updateIndex st.notCommitted p pageStart }
  | .commit =>
      { committed := mergeIndex st.committed st.notCommitted,
        notCommitted := emptyIndex }
  | .rollback => { st with notCommitted := emptyIndex }

/-- The frame-scanning loop of `WAL._load_wal`: `_load_next_frame` reads
the 5-byte frame header at the cursor, skips the payload for PAGE
frames, and indexes the frame with `page_start` = offset right after
the header. -/
def scanFrames (pageSize : Nat) : Nat → WalIndexes → List Frame → WalIndexes
  | _, st, [] => st
  | off, st, f :: fs =>
      scanFrames pageSize (off + frameSize pageSize f)
        (indexFrame st f (off + FRAME_HEADER_LENGTH)) fs

/-- `WAL._load_wal`: scan all frames starting right after the 4-byte
header, then discard whatever is left uncommitted. -/
def loadWal (pageSize : Nat) (fs : List Frame) : WalIndexes :=
  let st := scanFrames pageSize OTHERS_BYTES ⟨emptyIndex, emptyIndex⟩ fs
  { st with notCommitted := emptyIndex }

/-- Modelled from the spec: among the frames still ahead, a COMMIT
occurs before any ROLLBACK. -/
def commitBeforeRollback : List Frame → Bool
  | [] => false
  | .commit :: _ => true
  | .rollback :: _ => false
  | .page _ :: fs => commitBeforeRollback fs

/-- Modelled from the spec: the payload offset of the latest PAGE frame
for page `p` that is followed by a COMMIT with no intervening ROLLBACK
(`none` when there is no such frame). -/
def latestCommittedOffset (pageSize p : Nat) : Nat → List Frame → Option Nat
  | _, [] => none
  | off, f :: fs =>
    match latestCommittedOffset pageSize p (off + frameSize pageSize f) fs with
    | some o => some o
    | none =>
      match f with
      | .page q =>
          if q = p ∧ commitBeforeRollback fs then
            some (off + FRAME_HEADER_LENGTH)
          else none
      | _ => none

/-! `WAL._add_frame` / `WAL.set_page` (for C10). -/

inductive FrameType where
  | page
  | commit
  | rollback
  deriving Repr, DecidableEq

def frameTypeValue : FrameType → Nat
  | .page => 1
  | .commit => 2
  | .rollback => 3

/-- Python truthiness of an optional bytes value (`None` and `b""` are
falsy). -/
def optDataTruthy : Option (List Nat) → Bool
  | none => false
  | some [] => false
  | some (_ :: _) => true

/-- Mutable WAL state: page-size, both indexes, and the current length
of the WAL file (the append cursor). -/
structure WalFile where
  pageSize : Nat
  indexes : WalIndexes
  fileLength : Nat

def FrameType.toFrame : FrameType → Nat → Frame
  | .page, p => .page p
  | .commit, _ => .commit
  | .rollback, _ => .rollback

/-- `WAL._add_frame`: validation, frame append, then
`_index_frame(frame_type, page, tell() - page_size)`. -/
def addFrame (w : WalFile) (frameType : FrameType) (page : Option Nat)
    (pageData : Option (List Nat)) : Except String WalFile :=
  if frameType = .page ∧ (optTruthy page = false ∨ optDataTruthy pageData = false) then
    .error "PAGE frame without page data"
  else if optDataTruthy pageData = true ∧ (pageData.getD []).length ≠ w.pageSize then
    .error "Page data is different from page size"
  else
    let page := if optTruthy page then page.getD 0 else 0
    let pageData := if frameType = .page then pageData.getD [] else []
    let dataLength := FRAME_TYPE_BYTES + PAGE_REFERENCE_BYTES + pageData.length
    let newLength := w.fileLength + dataLength
    .ok { w with
      fileLength := newLength
      indexes := indexFrame w.indexes (frameType.toFrame page)
        (newLength - w.pageSize) }

/-- `WAL.set_page`. -/
def walSetPage (w : WalFile) (page : Nat) (pageData : List Nat) :
    Except String WalFile :=
  addFrame w .page (some page) (some pageData)

/-! ## Nodes (`src/uidtree/node.py`)

Decoded page images.  The six Node classes are an enum of variants:
record-holding nodes (LonelyRoot = tag 1, Leaf = tag 4),
reference-holding nodes (Root = tag 2, Internal = tag 3), Overflow
(tag 5, one OpaqueData entry) and Freelist (tag 6, no entries). -/

inductive NodeType where
  | lonelyRoot
  | root
  | internal
  | leaf
  | overflow
  | freelist
  deriving Repr, DecidableEq

def nodeTypeInt : NodeType → Nat
  | .lonelyRoot => 1
  | .root => 2
  | .internal => 3
  | .leaf => 4
  | .overflow => 5
  | .freelist => 6

inductive DNode where
  | recNode (t : NodeType) (entries : List RecordE) (nextPage : Option Nat)
  | refNode (t : NodeType) (entries : List RefE)
  | ovNode (data : List Nat) (nextPage : Option Nat)
  | flNode (nextPage : Option Nat)
  deriving Repr, DecidableEq

def DNode.nodeType : DNode → NodeType
  | .recNode t _ _ => t
  | .refNode t _ => t
  | .ovNode _ _ => .overflow
  | .flNode _ => .freelist

/-- The `next_page` attribute (`None` for reference nodes, which never
set it). -/
def DNode.next : DNode → Option Nat
  | .recNode _ _ nx => nx
  | .refNode _ _ => none
  | .ovNode _ nx => nx
  | .flNode nx => nx

/-- `max_children` per node class (`order` is the tree's branching
factor `m`). -/
def maxChildren (conf : TreeConf) : NodeType → Nat
  | .lonelyRoot => conf.order - 1
  | .leaf => conf.order - 1
  | .root => conf.order
  | .internal => conf.order
  | .overflow => 1
  | .freelist => 0

/-- `min_children` per node class (`math.ceil(order / 2)` is
`(order + 1) / 2` on naturals). -/
def minChildren (conf : TreeConf) : NodeType → Nat
  | .lonelyRoot => 0
  | .leaf => (conf.order + 1) / 2 - 1
  | .root => 2
  | .internal => (conf.order + 1) / 2
  | .overflow => 1
  | .freelist => 0

/-- `num_children`: entry count for record nodes;
`len(entries) + 1 if self.entries else 0` for reference nodes
(`ReferenceNode.num_children`); the single OpaqueData entry for an
Overflow node; none for a Freelist node. -/
def DNode.numChildren : DNode → Nat
  | .recNode _ es _ => es.length
  | .refNode _ es => if es.isEmpty then 0 else es.length + 1
  | .ovNode _ _ => 1
  | .flNode _ => 0

/-- `Node.can_add_entry = num_children < max_children`. -/
def canAddEntry (conf : TreeConf) (n : DNode) : Bool :=
  n.numChildren < maxChildren conf n.nodeType

/-- `Node.can_delete_entry = num_children > min_children`. -/
def canDeleteEntry (conf : TreeConf) (n : DNode) : Bool :=
  n.numChildren > minChildren conf n.nodeType

/-- `Node.max_payload = page_size - 4 - PAGE_REFERENCE_BYTES`. -/
def maxPayload (conf : TreeConf) : Nat :=
  conf.pageSize - 4 - PAGE_REFERENCE_BYTES

/-- The concatenated entry bytes of `Node.dump`'s loop. -/
def DNode.payload (conf : TreeConf) : DNode → List Nat
  | .recNode _ es _ => (es.map (recordDump conf)).flatten
  | .refNode _ es => (es.map (refDump conf)).flatten
  | .ovNode data _ => data
  | .flNode _ => []

/-- `Node.dump`: entry bytes, `used_page_length = len(data) + 4 +
PAGE_REFERENCE_BYTES`, the two assertions (`0 < used_page_length ≤
page_size` and `len(data) ≤ max_payload`), then header + data + zero
padding.  `none` models a failed assertion. -/
def nodeDump (conf : TreeConf) (n : DNode) : Option (List Nat) :=
  let data := n.payload conf
  let usedPageLength := data.length + 4 + PAGE_REFERENCE_BYTES
  if 0 < usedPageLength ∧ usedPageLength ≤ conf.pageSize ∧
      data.length ≤ maxPayload conf then
    let nextPage := (n.next).getD 0
    some (serialize (nodeTypeInt n.nodeType) 1 ++
      serialize usedPageLength 3 ++
      serialize nextPage PAGE_REFERENCE_BYTES ++
      data ++ List.replicate (conf.pageSize - usedPageLength) 0)
  else none

/-! `ReferenceNode.insert_entry` (`src/uidtree/node.py`): the base
`Node.insert_entry` is `bisect.insort(self.entries, entry)` (ordered
insertion by key, placed after equal keys); then the entry's index is
found by `list.index` (first entry whose key equals the new key), and
the neighbours' `before`/`after` pointers are fixed up. -/

def insortRef (e : RefE) : List RefE → List RefE
  | [] => [e]
  | x :: xs => if e.key < x.key then e :: x :: xs else x :: insortRef e xs

/-- Record-node `insert_entry` is the plain `bisect.insort`. -/
def insortRec (e : RecordE) : List RecordE → List RecordE
  | [] => [e]
  | x :: xs => if e.key < x.key then e :: x :: xs else x :: insortRec e xs

/-- `list.index(entry)` with `ComparableEntry.__eq__` (key equality):
index of the first entry with the given key (length if absent, a case
`insert_entry` never hits). -/
def indexOfKey (k : Nat) : List RefE → Nat
  | [] => 0
  | x :: xs => if x.key = k then 0 else indexOfKey k xs + 1

/-- `ReferenceNode.insert_entry` on the entries list. -/
def refNodeInsertEntry (l : List RefE) (e : RefE) : List RefE :=
  let l' := insortRef e l
  let i := indexOfKey e.key l'
  let l'' :=
    if 0 < i then
      match l'.get? (i - 1) with
      | some prev => l'.set (i - 1) { prev with after := e.before }
      | none => l'
    else l'
  match l''.get? (i + 1) with
  | some nxt => l''.set (i + 1) { nxt with before := e.after }
  | none => l''

/-- Closed form of `ReferenceNode.insert_entry` on a node that holds
no entry with the new key: the prefix `t` of entries at smaller keys
(its last entry's `after` fixed to the new entry's `before`), the new
entry, then the suffix `d` of entries at larger keys (its first
entry's `before` fixed to the new entry's `after`). -/
def insertFixupResult (t d : List RefE) (e : RefE) : List RefE :=
  (if htne : t = [] then [] else
    t.dropLast ++ [{ t.getLast htne with after := e.before }]) ++
  e :: (match d with
    | [] => []
    | y :: d₂ => { y with before := e.after } :: d₂)

/-! ## Pager (`src/bplustree/memory.py`, class `FileMemory`)

The durable state seen through the pager: a map from page number to the
decoded node most recently written there, plus `last_page`,
`freelist_start_page` and the metadata root page.  `set_node` goes
through the WAL and the cache; since the tree is the single writer and
a failed transaction rolls the WAL back and clears the cache, the
committed view behaves as this simple store. -/

structure Mem where
  pages : Nat → Option DNode
  lastPage : Nat
  freelistStartPage : Nat
  rootPage : Nat

def getNode (m : Mem) (page : Nat) : Option DNode := m.pages page

def setNode (m : Mem) (page : Nat) (n : DNode) : Mem :=
  { m with pages := fun q => if q = page then some n else m.pages q }

/-- Overwrite a node's `next_page` attribute (used on freelist tails;
reference nodes never carry a next page in this model). -/
def DNode.withNext : DNode → Option Nat → DNode
  | .recNode t es _, nx => .recNode t es nx
  | .refNode t es, _ => .refNode t es
  | .ovNode d _, nx => .ovNode d nx
  | .flNode _, nx => .flNode nx

/-- The walk of `FileMemory._traverse_free_list`, fuel-bounded; returns
the pages of the second-to-last and last freelist nodes.  (On a
well-formed freelist the fuel never runs out; a dangling link would
raise in Python.) -/
def traverseFreeListGo (m : Mem) : Nat → Nat → Option Nat → Option Nat × Option Nat
  | 0, last, secondToLast => (secondToLast, some last)
  | fuel + 1, last, secondToLast =>
    match getNode m last with
    | none => (secondToLast, some last)
    | some n =>
      match n.next with
      | none => (secondToLast, some last)
      | some nxt => traverseFreeListGo m fuel nxt (some last)

def traverseFreeList (fuel : Nat) (m : Mem) : Option Nat × Option Nat :=
  if m.freelistStartPage = 0 then (none, none)
  else traverseFreeListGo m fuel m.freelistStartPage none

/-- `FileMemory._insert_in_freelist`. -/
def insertInFreelist (fuel : Nat) (m : Mem) (page : Nat) : Mem :=
  let (_, last) := traverseFreeList fuel m
  let m₁ := setNode m page (.flNode none)
  match last with
  | none => { m₁ with freelistStartPage := page }
  | some lastPage =>
    match getNode m₁ lastPage with
    | some n => setNode m₁ lastPage (n.withNext (some page))
    | none => m₁

/-- `FileMemory._pop_from_freelist`. -/
def popFromFreelist (fuel : Nat) (m : Mem) : Option Nat × Mem :=
  let (secondToLast, last) := traverseFreeList fuel m
  match last with
  | none => (none, m)
  | some lastPage =>
    match secondToLast with
    | none => (some lastPage, { m with freelistStartPage := 0 })
    | some stlPage =>
      match getNode m stlPage with
      | some n => (some lastPage, setNode m stlPage (n.withNext none))
      | none => (some lastPage, m)

/-- `FileMemory.next_available_page`: pop the freelist tail, else grow
`last_page`. -/
def nextAvailablePage (fuel : Nat) (m : Mem) : Nat × Mem :=
  match popFromFreelist fuel m with
  | (some p, m₁) => (p, m₁)
  | (none, m₁) => (m₁.lastPage + 1, { m₁ with lastPage := m₁.lastPage + 1 })

/-! ## Overflow chains (`BPlusTree._create_overflow`,
`_traverse_overflow`, `_read_from_overflow`, `_delete_overflow`) and
`utils.iter_slice`. -/

/-- `utils.iter_slice`, fuel-bounded by the input length (Python's loop
would not terminate for `n = 0`, which a positive `max_payload`
rules out). -/
def iterSliceGo (n : Nat) : Nat → List Nat → List (List Nat)
  | 0, _ => []
  | _ + 1, [] => []
  | fuel + 1, b :: bs => (b :: bs).take n :: iterSliceGo n fuel ((b :: bs).drop n)

def iterSlice (value : List Nat) (n : Nat) : List (List Nat) :=
  iterSliceGo n value.length value

/-- The chunk-writing loop of `_create_overflow`: the page for the next
chunk is allocated while the current one is written; the last chunk's
node gets `next_page = None`. -/
def createOverflowGo (fuel : Nat) : Mem → List (List Nat) → Nat → Mem
  | m, [], _ => m
  | m, [chunk], page => setNode m page (.ovNode chunk none)
  | m, chunk :: rest₀ :: rest, page =>
    let (nextPage, m₁) := nextAvailablePage fuel m
    createOverflowGo fuel (setNode m₁ page (.ovNode chunk (some nextPage)))
      (rest₀ :: rest) nextPage

/-- `BPlusTree._create_overflow`: chunk `value` into
`OverflowNode().max_payload`-sized slices and write the chain,
returning the first overflow page. -/
def createOverflow (conf : TreeConf) (fuel : Nat) (m : Mem) (value : List Nat) :
    Nat × Mem :=
  let (firstOverflowPage, m₁) := nextAvailablePage fuel m
  (firstOverflowPage,
    createOverflowGo fuel m₁ (iterSlice value (maxPayload conf)) firstOverflowPage)

/-- `BPlusTree._read_from_overflow`: walk `next_page` links from the
first overflow page, concatenating each node's OpaqueData. -/
def readFromOverflow (m : Mem) : Nat → Nat → Option (List Nat)
  | 0, _ => none
  | fuel + 1, page =>
    match getNode m page with
    | some (.ovNode data nextPage) =>
      match nextPage with
      | none => some data
      | some np => (readFromOverflow m fuel np).map (fun rest => data ++ rest)
    | _ => none

/-- `BPlusTree._delete_overflow`: walk the chain, freeing each page
(`del_node` → `_insert_in_freelist`); the captured `next_page` survives
the page being overwritten by a FreelistNode. -/
def deleteOverflow (flFuel : Nat) : Nat → Mem → Nat → Option Mem
  | 0, _, _ => none
  | fuel + 1, m, page =>
    match getNode m page with
    | some (.ovNode _ nextPage) =>
      let m₁ := insertInFreelist flFuel m page
      match nextPage with
      | none => some m₁
      | some np => deleteOverflow flFuel fuel m₁ np
    | _ => none

/-! ## Search (`BPlusTree._search_in_tree`) -/

/-- The `utils.pairwise` loop of `_search_in_tree`: first adjacent pair
with `ref_a.key ≤ key < ref_b.key`. -/
def pairwiseScan (key : Nat) : List RefE → Option Nat
  | a :: b :: rest =>
    if a.key ≤ key ∧ key < b.key then some a.after
    else pairwiseScan key (b :: rest)
  | _ => none

/-- The child-page choice of `_search_in_tree` on a reference node
(`none` models the failing `assert page is not None`, or the
IndexError of `smallest_key` on an empty node). -/
def selectChild (entries : List RefE) (key : Nat) : Option Nat :=
  match entries with
  | [] => none
  | x :: xs =>
    let lastRef := (x :: xs).getLast (List.cons_ne_nil x xs)
    if key < x.key then some x.before
    else if lastRef.key ≤ key then some lastRef.after
    else pairwiseScan key (x :: xs)

/-- One ancestor on the descent path: page, node type and entries of a
reference node (the in-memory `parent` attribute, kept as a path as the
spec's design note suggests). -/
def PathE : Type := Nat × NodeType × List RefE

/-- `_search_in_tree`, fuel-bounded recursion: returns the ancestor
path (nearest parent first) and the record node (LonelyRoot or Leaf)
where the key would live. -/
def searchPath (m : Mem) : Nat → Nat → Nat × DNode → List PathE →
    Option (List PathE × Nat × DNode)
  | 0, _, _, _ => none
  | fuel + 1, key, (page, node), path =>
    match node with
    | .recNode _ _ _ => some (path, page, node)
    | .refNode t refs =>
      match selectChild refs key with
      | none => none
      | some childPage =>
        match getNode m childPage with
        | none => none
        | some child =>
          searchPath m fuel key (childPage, child) ((page, t, refs) :: path)
    | _ => none

/-- The direct children of a reference node: `before` of the first
reference and `after` of every reference. -/
def childPages : List RefE → List Nat
  | [] => []
  | hd :: tl => hd.before :: (hd :: tl).map RefE.after

/-- Well-formed subtree of exact height `h` rooted at `page`: record
nodes at height 0; reference nodes are non-empty, strictly ascending by
key, and all children are well-formed subtrees of height `h - 1`
(leaves at equal depth, spec invariant I2). -/
inductive IsTree (m : Mem) : Nat → Nat → Prop where
  | leaf (page : Nat) (t : NodeType) (es : List RecordE) (nx : Option Nat)
      (hget : getNode m page = some (.recNode t es nx)) : IsTree m page 0
  | node (page : Nat) (t : NodeType) (refs : List RefE) (h : Nat)
      (hget : getNode m page = some (.refNode t refs)) (hne : refs ≠ [])
      (hsorted : List.Pairwise (fun a b => a.key < b.key) refs)
      (hchildren : ∀ q ∈ childPages refs, IsTree m q h) :
      IsTree m page (h + 1)

/-! ## Insertion (`BPlusTree.insert`, `batch_insert`, `_split_leaf`,
`_split_parent`, `_create_new_root`) -/

inductive TreeError where
  | keyExists
  | orderViolation
  | corrupt
  deriving Repr, DecidableEq

/-- `bisect.bisect_left` on the (sorted) entries followed by the
equality check of `Node._find_entry_index`; `none` models the raised
`ValueError`. -/
def findEntryIdx (es : List RecordE) (key : Nat) : Option Nat :=
  let i := (es.takeWhile (fun r => decide (r.key < key))).length
  match es.get? i with
  | some r => if r.key = key then some i else none
  | none => none

/-- `Node.get_entry`. -/
def getEntry (es : List RecordE) (key : Nat) : Option RecordE :=
  (findEntryIdx es key).bind fun i => es.get? i

/-- `BPlusTree._create_new_root`. -/
def createNewRoot (fuel : Nat) (m : Mem) (ref : RefE) : Mem :=
  let (page, m₁) := nextAvailablePage fuel m
  let rootEntries := refNodeInsertEntry [] ref
  let m₂ := { m₁ with rootPage := page }
  setNode m₂ page (.refNode .root rootEntries)

/-- `BPlusTree._split_parent`, recursing up the ancestor path. -/
def splitParent (conf : TreeConf) (fuel : Nat) :
    List PathE → Mem → Nat → NodeType → List RefE → Except TreeError Mem
  | path, m, oldPage, oldType, oldEntries =>
    let (newPage, m₁) := nextAvailablePage fuel m
    let lower := oldEntries.take (oldEntries.length / 2)
    let upper := oldEntries.drop (oldEntries.length / 2)
    match upper with
    | [] => .error .corrupt
    | popped :: newEntries =>
      let ref : RefE := { popped with before := oldPage, after := newPage }
      if oldType = .root then
        let m₂ := createNewRoot fuel m₁ ref
        .ok (setNode (setNode m₂ oldPage (.refNode .internal lower)) newPage
          (.refNode .internal newEntries))
      else
        match path with
        | [] => .error .corrupt
        | (pPage, pType, pEntries) :: rest =>
          if canAddEntry conf (.refNode pType pEntries) then
            let m₂ := setNode m₁ pPage (.refNode pType (refNodeInsertEntry pEntries ref))
            .ok (setNode (setNode m₂ oldPage (.refNode oldType lower)) newPage
              (.refNode .internal newEntries))
          else
            match splitParent conf fuel rest m₁ pPage pType
                (refNodeInsertEntry pEntries ref) with
            | .error e => .error e
            | .ok m₂ =>
              .ok (setNode (setNode m₂ oldPage (.refNode oldType lower)) newPage
                (.refNode .internal newEntries))

/-- `BPlusTree._split_leaf`. -/
def splitLeaf (conf : TreeConf) (fuel : Nat) (m : Mem) (path : List PathE)
    (oldPage : Nat) (oldType : NodeType) (oldEntries : List RecordE)
    (oldNext : Option Nat) : Except TreeError Mem :=
  let (newPage, m₁) := nextAvailablePage fuel m
  let lower := oldEntries.take (oldEntries.length / 2)
  let upper := oldEntries.drop (oldEntries.length / 2)
  match upper.head? with
  | none => .error .corrupt
  | some smallest =>
    let ref : RefE := { key := smallest.key, before := oldPage, after := newPage }
    if oldType = .lonelyRoot then
      let m₂ := createNewRoot fuel m₁ ref
      .ok (setNode (setNode m₂ oldPage (.recNode .leaf lower (some newPage))) newPage
        (.recNode .leaf upper oldNext))
    else
      match path with
      | [] => .error .corrupt
      | (pPage, pType, pEntries) :: rest =>
        if canAddEntry conf (.refNode pType pEntries) then
          let m₂ := setNode m₁ pPage (.refNode pType (refNodeInsertEntry pEntries ref))
          .ok (setNode (setNode m₂ oldPage (.recNode oldType lower (some newPage)))
            newPage (.recNode .leaf upper oldNext))
        else
          match splitParent conf fuel rest m₁ pPage pType
              (refNodeInsertEntry pEntries ref) with
          | .error e => .error e
          | .ok m₂ =>
            .ok (setNode (setNode m₂ oldPage (.recNode oldType lower (some newPage)))
              newPage (.recNode .leaf upper oldNext))

/-- `BPlusTree.insert` (body of the write transaction). -/
def insertTree (conf : TreeConf) (fuel : Nat) (m : Mem) (key : Nat)
    (value : List Nat) (replace : Bool) : Except TreeError Mem :=
  match getNode m m.rootPage with
  | none => .error .corrupt
  | some root =>
    match searchPath m fuel key (m.rootPage, root) [] with
    | none => .error .corrupt
    | some (path, leafPage, leaf) =>
      match leaf with
      | .recNode t es nx =>
        match findEntryIdx es key with
        | some i =>
          if replace = false then .error .keyExists
          else
            match es.get? i with
            | none => .error .corrupt
            | some existing =>
              let delStep : Option Mem :=
                if optTruthy existing.overflowPage then
                  deleteOverflow fuel fuel m (existing.overflowPage.getD 0)
                else some m
              match delStep with
              | none => .error .corrupt
              | some m₁ =>
                if value.length ≤ conf.valueSize then
                  let es' := es.set i
                    { existing with value := some value, overflowPage := none }
                  .ok (setNode m₁ leafPage (.recNode t es' nx))
                else
                  let (op, m₂) := createOverflow conf fuel m₁ value
                  let es' := es.set i
                    { existing with value := none, overflowPage := some op }
                  .ok (setNode m₂ leafPage (.recNode t es' nx))
        | none =>
          let step : RecordE × Mem :=
            if value.length ≤ conf.valueSize then
              ({ key := key, value := some value, overflowPage := none }, m)
            else
              let (op, m₁) := createOverflow conf fuel m value
              ({ key := key, value := none, overflowPage := some op }, m₁)
          let record := step.1
          let m₁ := step.2
          if canAddEntry conf (.recNode t es nx) then
            .ok (setNode m₁ leafPage (.recNode t (insortRec record es) nx))
          else
            splitLeaf conf fuel m₁ path leafPage t (insortRec record es) nx
      | _ => .error .corrupt

/-- `FileMemory.write_transaction` around `insert`: on error, the WAL
is rolled back and the node cache cleared, so the durable state is the
pre-transaction one. -/
def insertTxn (conf : TreeConf) (fuel : Nat) (m : Mem) (key : Nat)
    (value : List Nat) (replace : Bool) : Mem :=
  match insertTree conf fuel m key value replace with
  | .ok m₁ => m₁
  | .error _ => m

/-- `BPlusTree.get` (read transaction): search, `get_entry`, then
`_get_value_from_record` (inline value or overflow chain); the supplied
default is `None`. -/
def getTree (fuel : Nat) (m : Mem) (key : Nat) :
    Option (List Nat) :=
  match getNode m m.rootPage with
  | none => none
  | some root =>
    match searchPath m fuel key (m.rootPage, root) [] with
    | none => none
    | some (_, _, .recNode _ es _) =>
      match getEntry es key with
      | none => none
      | some r =>
        match r.value with
        | some v => some v
        | none =>
          match r.overflowPage with
          | some op => readFromOverflow m fuel op
          | none => none
    | some _ => none

/-- The loop of `BPlusTree.batch_insert`: `cached` is the target leaf
carried between iterations (`node` in the source, `None` after a
split), holding the ancestor path captured when it was located. -/
def batchInsertGo (conf : TreeConf) (fuel : Nat) :
    List (Nat × List Nat) → Option (List PathE × Nat × DNode) → Mem →
    Except TreeError Mem
  | [], cached, m =>
    match cached with
    | some (_, page, node) => .ok (setNode m page node)
    | none => .ok m
  | (key, value) :: rest, cached, m =>
    let found : Option (List PathE × Nat × DNode) :=
      match cached with
      | some c => some c
      | none =>
        match getNode m m.rootPage with
        | none => none
        | some root => searchPath m fuel key (m.rootPage, root) []
    match found with
    | none => .error .corrupt
    | some (path, leafPage, leaf) =>
      match leaf with
      | .recNode t es nx =>
        let bad : Bool :=
          match es.getLast? with
          | some biggest => decide (key ≤ biggest.key)
          | none => false
        if bad then .error .orderViolation
        else
          let step : RecordE × Mem :=
            if value.length ≤ conf.valueSize then
              ({ key := key, value := some value, overflowPage := none }, m)
            else
              let (op, m₁) := createOverflow conf fuel m value
              ({ key := key, value := none, overflowPage := some op }, m₁)
          let record := step.1
          let m₁ := step.2
          if canAddEntry conf (.recNode t es nx) then
            batchInsertGo conf fuel rest
              (some (path, leafPage, .recNode t (es ++ [record]) nx)) m₁
          else
            match splitLeaf conf fuel m₁ path leafPage t (es ++ [record]) nx with
            | .error e => .error e
            | .ok m₂ => batchInsertGo conf fuel rest none m₂
      | _ => .error .corrupt

/-- `BPlusTree.batch_insert` (body of the write transaction). -/
def batchInsert (conf : TreeConf) (fuel : Nat) (m : Mem)
    (items : List (Nat × List Nat)) : Except TreeError Mem :=
  batchInsertGo conf fuel items none m

/-- The default constructor configuration of `BPlusTree.__init__`:
`page_size=4096, order=100, key_size=16, value_size=32`. -/
def defaultTreeConf : TreeConf := ⟨4096, 100, 16, 32⟩

/-- 74 minimal records (empty inline values), fewer than the Leaf
branching maximum of `order - 1 = 99` under the default
configuration. -/
def records74 : List RecordE :=
  (List.range 74).map (fun i => ⟨i, some [], none⟩)

/-- A single-record tree (LonelyRoot on page 1 holding key 5). -/
def memW1 : Mem :=
  { pages := fun p =>
      if p = 1 then some (.recNode .lonelyRoot [⟨5, some [102, 111, 111], none⟩] none)
      else none,
    lastPage := 1, freelistStartPage := 0, rootPage := 1 }

/-- The configuration the repository's tests use for small trees:
`order=4, key_size=16, value_size=16`. -/
def conf4 : TreeConf := ⟨4096, 4, 16, 16⟩

/-- The tree obtained (with `order=4`) by inserting keys 1, 2, 5, 6:
the fourth insert splits the leaf, leaving leaf page 1 = {1, 2},
leaf page 2 = {5, 6} and a Root on page 3 with the single separator
Reference (key 5, before 1, after 2). -/
def memC2 : Mem :=
  { pages := fun p =>
      if p = 3 then some (.refNode .root [⟨5, 1, 2⟩])
      else if p = 1 then
        some (.recNode .leaf [⟨1, some [49], none⟩, ⟨2, some [50], none⟩] (some 2))
      else if p = 2 then
        some (.recNode .leaf [⟨5, some [53], none⟩, ⟨6, some [54], none⟩] none)
      else none,
    lastPage := 3, freelistStartPage := 0, rootPage := 3 }

theorem serialize_length (v n : Nat) : (serialize v n).length = n := by
  induction n generalizing v with
  | zero => rfl
  | succ n ih => simp [serialize, ih]

theorem deserialize_serialize (n : Nat) :
    ∀ v : Nat, v < 256 ^ n → deserialize (serialize v n) = v := by
  induction n with
  | zero =>
    intro v hv
    simp [pow_zero] at hv
    simp [serialize, deserialize, hv]
  | succ n ih =>
    intro v hv
    have hlt : v / 256 < 256 ^ n := by
      rw [Nat.div_lt_iff_lt_mul (by norm_num : 0 < 256)]
      calc v < 256 ^ (n + 1) := hv
        _ = 256 ^ n * 256 := by ring
    have := ih (v / 256) hlt
    simp only [serialize, deserialize, List.foldr_cons]
    have hrest : deserialize (serialize (v / 256) n) = v / 256 := this
    simp only [deserialize] at hrest
    rw [hrest]
    omega

theorem serialize_lt (v n : Nat) : ∀ b ∈ serialize v n, b < 256 := by
  induction n generalizing v with
  | zero => simp [serialize]
  | succ n ih =>
    intro b hb
    simp only [serialize, List.mem_cons] at hb
    rcases hb with h | h
    · subst h; exact Nat.mod_lt _ (by norm_num)
    · exact ih _ b h

theorem take_of_append {α : Type} (n : Nat) (l₁ l₂ : List α)
    (h : l₁.length = n) : (l₁ ++ l₂).take n = l₁ := by
  subst h; simp

theorem drop_of_append {α : Type} (n : Nat) (l₁ l₂ : List α)
    (h : l₁.length = n) : (l₁ ++ l₂).drop n = l₂ := by
  subst h; simp

theorem take_all_of_length {α : Type} (n : Nat) (l : List α)
    (h : l.length = n) : l.take n = l := by
  subst h; simp

/-- `dump` fails its `used_page_length ≤ page_size` assertion whenever
the entry bytes exceed the page. -/
theorem nodeDump_none (conf : TreeConf) (n : DNode)
    (h : conf.pageSize < (n.payload conf).length + 4 + PAGE_REFERENCE_BYTES) :
    nodeDump conf n = none := by
  simp only [nodeDump]
  rw [if_neg]
  rintro ⟨-, h2, -⟩
  omega

/-- Every record whose dumped value fits `value_size` dumps to exactly
`Record.length` bytes (the key is always padded to `key_size`). -/
theorem recordDump_length (conf : TreeConf) (r : RecordE)
    (h : (if optTruthy r.overflowPage then [] else (r.value).getD []).length ≤
      conf.valueSize) :
    (recordDump conf r).length = recordLength conf := by
  simp only [recordDump, recordLength, serializeBytes, List.length_append,
    serialize_length, List.length_replicate, USED_KEY_LENGTH_BYTES,
    USED_VALUE_LENGTH_BYTES, PAGE_REFERENCE_BYTES] at h ⊢
  omega

theorem recordLoad_recordDump_inline (conf : TreeConf) (k : Nat) (v : List Nat)
    (hks : conf.keySize < 65536) (hvs : conf.valueSize < 65536)
    (hk : k < 256 ^ conf.keySize) (hv : v.length ≤ conf.valueSize) :
    recordLoad conf (recordDump conf ⟨k, some v, none⟩) = ⟨k, some v, none⟩ := by
  have hkb : (serializeBytes k conf.keySize).length = conf.keySize :=
    serialize_length ..
  have hdump : recordDump conf ⟨k, some v, none⟩ =
      serialize conf.keySize 2 ++ (serializeBytes k conf.keySize ++
        (serialize v.length 2 ++ (v ++
          (List.replicate (conf.valueSize - v.length) 0 ++ serialize 0 4)))) := by
    simp [recordDump, optTruthy, hkb, USED_VALUE_LENGTH_BYTES,
      PAGE_REFERENCE_BYTES, List.append_assoc]
  have h1 : (recordDump conf ⟨k, some v, none⟩).take 2 = serialize conf.keySize 2 := by
    rw [hdump]; exact take_of_append _ _ _ (serialize_length ..)
  have h2 : (recordDump conf ⟨k, some v, none⟩).drop 2 =
      serializeBytes k conf.keySize ++
        (serialize v.length 2 ++ (v ++
          (List.replicate (conf.valueSize - v.length) 0 ++ serialize 0 4))) := by
    rw [hdump]; exact drop_of_append _ _ _ (serialize_length ..)
  have h3 : (recordDump conf ⟨k, some v, none⟩).drop (2 + conf.keySize) =
      serialize v.length 2 ++ (v ++
        (List.replicate (conf.valueSize - v.length) 0 ++ serialize 0 4)) := by
    rw [hdump, ← List.append_assoc]
    exact drop_of_append _ _ _ (by simp [serialize_length, hkb])
  have h4 : (recordDump conf ⟨k, some v, none⟩).drop (2 + conf.keySize + 2) =
      v ++ (List.replicate (conf.valueSize - v.length) 0 ++ serialize 0 4) := by
    rw [hdump, ← List.append_assoc, ← List.append_assoc]
    refine drop_of_append _ _ _ ?_
    simp [serialize_length, hkb]
    omega
  have h5 : (recordDump conf ⟨k, some v, none⟩).drop
        (2 + conf.keySize + 2 + conf.valueSize) = serialize 0 4 := by
    rw [hdump, ← List.append_assoc, ← List.append_assoc, ← List.append_assoc,
      ← List.append_assoc]
    refine drop_of_append _ _ _ ?_
    simp [serialize_length, hkb]
    omega
  simp only [recordLoad, USED_KEY_LENGTH_BYTES, USED_VALUE_LENGTH_BYTES,
    PAGE_REFERENCE_BYTES]
  rw [h1, deserialize_serialize 2 conf.keySize (by simpa using hks), h2,
    take_of_append _ _ _ hkb]
  unfold serializeBytes
  rw [deserialize_serialize _ _ hk, h3,
    take_of_append _ _ _ (serialize_length ..),
    deserialize_serialize 2 v.length (by omega), h5,
    take_all_of_length _ _ (serialize_length ..),
    deserialize_serialize 4 0 (by norm_num), h4]
  simp

theorem recordLoad_recordDump_overflow (conf : TreeConf) (k op : Nat)
    (hks : conf.keySize < 65536)
    (hk : k < 256 ^ conf.keySize) (hop : 0 < op) (hop4 : op < 256 ^ 4) :
    recordLoad conf (recordDump conf ⟨k, none, some op⟩) = ⟨k, none, some op⟩ := by
  have hkb : (serializeBytes k conf.keySize).length = conf.keySize :=
    serialize_length ..
  have hop' : op ≠ 0 := by omega
  have hdump : recordDump conf ⟨k, none, some op⟩ =
      serialize conf.keySize 2 ++ (serializeBytes k conf.keySize ++
        (serialize 0 2 ++
          (List.replicate conf.valueSize 0 ++ serialize op 4))) := by
    simp [recordDump, optTruthy, hkb, USED_VALUE_LENGTH_BYTES,
      PAGE_REFERENCE_BYTES, List.append_assoc, hop']
  have h1 : (recordDump conf ⟨k, none, some op⟩).take 2 = serialize conf.keySize 2 := by
    rw [hdump]; exact take_of_append _ _ _ (serialize_length ..)
  have h2 : (recordDump conf ⟨k, none, some op⟩).drop 2 =
      serializeBytes k conf.keySize ++
        (serialize 0 2 ++ (List.replicate conf.valueSize 0 ++ serialize op 4)) := by
    rw [hdump]; exact drop_of_append _ _ _ (serialize_length ..)
  have h3 : (recordDump conf ⟨k, none, some op⟩).drop (2 + conf.keySize) =
      serialize 0 2 ++ (List.replicate conf.valueSize 0 ++ serialize op 4) := by
    rw [hdump, ← List.append_assoc]
    exact drop_of_append _ _ _ (by simp [serialize_length, hkb])
  have h5 : (recordDump conf ⟨k, none, some op⟩).drop
        (2 + conf.keySize + 2 + conf.valueSize) = serialize op 4 := by
    rw [hdump, ← List.append_assoc, ← List.append_assoc, ← List.append_assoc]
    refine drop_of_append _ _ _ ?_
    simp [serialize_length, hkb]
    omega
  simp only [recordLoad, USED_KEY_LENGTH_BYTES, USED_VALUE_LENGTH_BYTES,
    PAGE_REFERENCE_BYTES]
  rw [h1, deserialize_serialize 2 conf.keySize (by simpa using hks), h2,
    take_of_append _ _ _ hkb]
  unfold serializeBytes
  rw [deserialize_serialize _ _ hk, h3,
    take_of_append _ _ _ (serialize_length ..),
    deserialize_serialize 2 0 (by norm_num), h5,
    take_all_of_length _ _ (serialize_length ..),
    deserialize_serialize 4 op hop4]
  simp [hop']

theorem refLoad_refDump (conf : TreeConf) (f : RefE)
    (hks : conf.keySize < 65536) (hk : f.key < 256 ^ conf.keySize)
    (hb : f.before < 256 ^ 4) (ha : f.after < 256 ^ 4) :
    refLoad conf (refDump conf f) = f := by
  have hkb : (serializeBytes f.key conf.keySize).length = conf.keySize :=
    serialize_length ..
  have hdump : refDump conf f =
      serialize f.before 4 ++ (serialize conf.keySize 2 ++
        (serializeBytes f.key conf.keySize ++ serialize f.after 4)) := by
    simp [refDump, hkb, USED_VALUE_LENGTH_BYTES, PAGE_REFERENCE_BYTES,
      List.append_assoc]
  have h1 : (refDump conf f).take 4 = serialize f.before 4 := by
    rw [hdump]; exact take_of_append _ _ _ (serialize_length ..)
  have h2 : (refDump conf f).drop 4 =
      serialize conf.keySize 2 ++
        (serializeBytes f.key conf.keySize ++ serialize f.after 4) := by
    rw [hdump]; exact drop_of_append _ _ _ (serialize_length ..)
  have h3 : (refDump conf f).drop (4 + 2) =
      serializeBytes f.key conf.keySize ++ serialize f.after 4 := by
    rw [hdump, ← List.append_assoc]
    refine drop_of_append _ _ _ ?_
    simp [serialize_length]
  have h4 : (refDump conf f).drop (4 + 2 + conf.keySize) = serialize f.after 4 := by
    rw [hdump, ← List.append_assoc, ← List.append_assoc]
    refine drop_of_append _ _ _ ?_
    simp [serialize_length, hkb]
    omega
  simp only [refLoad, USED_KEY_LENGTH_BYTES, PAGE_REFERENCE_BYTES]
  rw [h1, deserialize_serialize 4 f.before hb, h2,
    take_of_append _ _ _ (serialize_length ..),
    deserialize_serialize 2 conf.keySize (by simpa using hks), h3,
    take_of_append _ _ _ hkb]
  unfold serializeBytes
  rw [deserialize_serialize _ _ hk, h4,
    take_all_of_length _ _ (serialize_length ..),
    deserialize_serialize 4 f.after ha]

/-- The committed index computed by the scanning fold, characterised
against the declarative "latest PAGE frame followed by a COMMIT with no
intervening ROLLBACK" reading, for an arbitrary starting state. -/
theorem scanFrames_committed (pageSize p : Nat) :
    ∀ (fs : List Frame) (off : Nat) (st : WalIndexes),
      (scanFrames pageSize off st fs).committed p =
        match latestCommittedOffset pageSize p off fs with
        | some o => some o
        | none =>
            if commitBeforeRollback fs then
              mergeIndex st.committed st.notCommitted p
            else st.committed p := by
  intro fs
  induction fs with
  | nil => intro off st; simp [scanFrames, latestCommittedOffset, commitBeforeRollback]
  | cons f fs ih =>
    intro off st
    cases f with
    | page q =>
      rw [scanFrames, ih]
      simp only [latestCommittedOffset, commitBeforeRollback, indexFrame]
      cases hlat : latestCommittedOffset pageSize p
          (off + frameSize pageSize (Frame.page q)) fs with
      | some o => simp
      | none =>
        simp only []
        by_cases hcbr : commitBeforeRollback fs
        · simp only [hcbr, if_true, and_true]
          by_cases hqp : q = p
          · subst hqp
            simp [mergeIndex, updateIndex]
          · simp [mergeIndex, updateIndex, hqp, Ne.symm hqp]
        · simp [hcbr]
    | commit =>
      rw [scanFrames, ih]
      simp only [latestCommittedOffset, commitBeforeRollback, indexFrame]
      cases hlat : latestCommittedOffset pageSize p
          (off + frameSize pageSize Frame.commit) fs with
      | some o => simp
      | none =>
        by_cases hcbr : commitBeforeRollback fs <;>
          simp [hcbr, mergeIndex, emptyIndex]
    | rollback =>
      rw [scanFrames, ih]
      simp only [latestCommittedOffset, commitBeforeRollback, indexFrame]
      cases hlat : latestCommittedOffset pageSize p
          (off + frameSize pageSize Frame.rollback) fs with
      | some o => simp
      | none =>
        by_cases hcbr : commitBeforeRollback fs <;>
          simp [hcbr, mergeIndex, emptyIndex]

/-- C4: WAL recovery.  For every frame sequence in an existing WAL
file, after `_load_wal` scans it sequentially, `_committed_pages` maps
each page number to the payload offset of the latest PAGE frame for
that page that is followed by a COMMIT with no intervening ROLLBACK
(and to nothing otherwise), and `_not_committed_pages` is empty, so
every PAGE frame written after the last COMMIT/ROLLBACK is absent
from both indexes. -/
theorem claim_C4_wal_recovery (pageSize : Nat) (fs : List Frame) (p : Nat) :
    (loadWal pageSize fs).committed p =
      latestCommittedOffset pageSize p OTHERS_BYTES fs ∧
    (loadWal pageSize fs).notCommitted p = none := by
  constructor
  · simp only [loadWal]
    rw [scanFrames_committed]
    cases hlat : latestCommittedOffset pageSize p OTHERS_BYTES fs with
    | some o => simp
    | none =>
      by_cases hcbr : commitBeforeRollback fs <;>
        simp [hcbr, mergeIndex, emptyIndex]
  · simp [loadWal, emptyIndex]

/-- C10: for every byte string `data` — including one of exactly
`page_size` bytes — `WAL.set_page(0, data)` fails with
`ValueError("PAGE frame without page data")`: page number 0 is falsy
in `_add_frame`'s check, so the metadata page can never be written
through the WAL. -/
theorem claim_C10_set_page_zero (w : WalFile) (data : List Nat) :
    walSetPage w 0 data = .error "PAGE frame without page data" := by
  simp [walSetPage, addFrame, optTruthy]

/-- C8: round-trip of the entry codec.  For every Record whose key is
representable in `key_size` bytes and which has either an inline value
of length ≤ `value_size` (no overflow page) or an overflow page > 0
(value absent, page representable in 4 bytes), and every Reference with
such a key and 4-byte-representable `before`/`after` page numbers,
`load(dump(e))` restores every field of `e` exactly. -/
theorem claim_C8_entry_roundtrip (conf : TreeConf)
    (hks : conf.keySize < 65536) (hvs : conf.valueSize < 65536) :
    (∀ k v, k < 256 ^ conf.keySize → v.length ≤ conf.valueSize →
      recordLoad conf (recordDump conf ⟨k, some v, none⟩) = ⟨k, some v, none⟩) ∧
    (∀ k op, k < 256 ^ conf.keySize → 0 < op → op < 256 ^ 4 →
      recordLoad conf (recordDump conf ⟨k, none, some op⟩) = ⟨k, none, some op⟩) ∧
    (∀ f : RefE, f.key < 256 ^ conf.keySize → f.before < 256 ^ 4 →
      f.after < 256 ^ 4 → refLoad conf (refDump conf f) = f) :=
  ⟨fun k v hk hv => recordLoad_recordDump_inline conf k v hks hvs hk hv,
   fun k op hk hop hop4 => recordLoad_recordDump_overflow conf k op hks hk hop hop4,
   fun f hk hb ha => refLoad_refDump conf f hks hk hb ha⟩

theorem claim_C8_witness :
    recordLoad ⟨4096, 100, 16, 32⟩
        (recordDump ⟨4096, 100, 16, 32⟩ ⟨5, some [102, 111, 111], none⟩) =
      ⟨5, some [102, 111, 111], none⟩ ∧
    recordLoad ⟨4096, 100, 16, 32⟩
        (recordDump ⟨4096, 100, 16, 32⟩ ⟨7, none, some 3⟩) = ⟨7, none, some 3⟩ ∧
    refLoad ⟨4096, 100, 16, 32⟩ (refDump ⟨4096, 100, 16, 32⟩ ⟨9, 1, 2⟩) =
      ⟨9, 1, 2⟩ :=
  ⟨(claim_C8_entry_roundtrip ⟨4096, 100, 16, 32⟩ (by norm_num) (by norm_num)).1
      5 [102, 111, 111] (by norm_num) (by norm_num),
   (claim_C8_entry_roundtrip ⟨4096, 100, 16, 32⟩ (by norm_num) (by norm_num)).2.1
      7 3 (by norm_num) (by norm_num) (by norm_num),
   (claim_C8_entry_roundtrip ⟨4096, 100, 16, 32⟩ (by norm_num) (by norm_num)).2.2
      ⟨9, 1, 2⟩ (by norm_num) (by norm_num) (by norm_num)⟩

/-- C5 (amended): `dump()` succeeds — both assertions hold — and
returns exactly `page_size` bytes for every node whose entry bytes fit
in the page, i.e. whose `used_page_length = len(entry bytes) + 8` is at
most `page_size`.  (The original claim's "every node within its
branching maximum, in particular under the default configuration" is
refuted by the counterexample below: the fit condition, not the
branching maximum, is what `dump` guarantees.) -/
theorem claim_C5_dump_length (conf : TreeConf) (n : DNode)
    (h : (n.payload conf).length + 4 + PAGE_REFERENCE_BYTES ≤ conf.pageSize) :
    ∃ bs, nodeDump conf n = some bs ∧ bs.length = conf.pageSize := by
  have hmp : (n.payload conf).length ≤ maxPayload conf := by
    simp only [maxPayload, PAGE_REFERENCE_BYTES] at *
    omega
  refine ⟨serialize (nodeTypeInt n.nodeType) 1 ++
      serialize ((n.payload conf).length + 4 + PAGE_REFERENCE_BYTES) 3 ++
      serialize ((n.next).getD 0) PAGE_REFERENCE_BYTES ++
      n.payload conf ++
      List.replicate
        (conf.pageSize - ((n.payload conf).length + 4 + PAGE_REFERENCE_BYTES)) 0,
    ?_, ?_⟩
  · simp only [nodeDump]
    rw [if_pos]
    exact ⟨by omega, h, hmp⟩
  · simp only [List.length_append, serialize_length, List.length_replicate,
      PAGE_REFERENCE_BYTES] at h ⊢
    omega

theorem claim_C5_witness :
    ∃ bs, nodeDump ⟨4096, 100, 16, 32⟩
        (.recNode .leaf [⟨1, some [102, 111, 111], none⟩] none) = some bs ∧
      bs.length = 4096 :=
  claim_C5_dump_length ⟨4096, 100, 16, 32⟩
    (.recNode .leaf [⟨1, some [102, 111, 111], none⟩] none) (by decide)

/-- C5 counterexample: under the default configuration
(`P=4096, order=100, key_size=16, value_size=32`) a Leaf holding 74
records — far below the branching maximum of `order - 1 = 99`, and a
state `insert` reaches (`can_add_entry` is still true at 73 entries) —
makes `dump()` fail its `used_page_length ≤ page_size` assertion
(74 · 56 + 8 = 4152 > 4096), contradicting the claim that `dump`
succeeds for every node within its branching maximum. -/
theorem claim_C5_counterexample :
    nodeDump ⟨4096, 100, 16, 32⟩ (.recNode .leaf records74 none) = none ∧
    (DNode.recNode .leaf records74 none).numChildren ≤
      maxChildren ⟨4096, 100, 16, 32⟩ .leaf ∧
    canAddEntry ⟨4096, 100, 16, 32⟩
      (.recNode .leaf (records74.take 73) none) = true := by
  refine ⟨?_, by decide, by decide⟩
  have hmap : records74.map (fun r => (recordDump ⟨4096, 100, 16, 32⟩ r).length) =
      List.replicate 74 56 := by
    rw [records74, List.map_map]
    refine List.eq_replicate_iff.mpr ⟨by simp, ?_⟩
    intro b hb
    obtain ⟨i, _, hi⟩ := List.mem_map.mp hb
    have := recordDump_length ⟨4096, 100, 16, 32⟩ ⟨i, some [], none⟩ (by simp)
    simp only [Function.comp_apply] at hi
    rw [← hi, this]
    rfl
  have hpl : ((DNode.recNode .leaf records74 none).payload
      ⟨4096, 100, 16, 32⟩).length = 4144 := by
    simp only [DNode.payload, List.length_flatten, List.map_map]
    have hmap' : List.map
        (List.length ∘ recordDump ⟨4096, 100, 16, 32⟩) records74 =
        List.replicate 74 56 := hmap
    rw [hmap']
    simp [List.sum_replicate]
  refine nodeDump_none _ _ ?_
  rw [hpl]
  norm_num [PAGE_REFERENCE_BYTES]

/-- C1: for every tree state and every key already present in the tree
(the leaf located by `_search_in_tree` holds an entry with that key),
`insert(key, value, replace=false)` fails with KeyExists before
writing anything; the transaction rolls back, and `get` returns the
same result for every key as before the call. -/
theorem claim_C1_insert_duplicate (conf : TreeConf) (fuel : Nat) (m : Mem)
    (key : Nat) (value : List Nat) (root : DNode) (path : List PathE)
    (leafPage : Nat) (t : NodeType) (es : List RecordE) (nx : Option Nat)
    (hroot : getNode m m.rootPage = some root)
    (hsearch : searchPath m fuel key (m.rootPage, root) [] =
      some (path, leafPage, .recNode t es nx))
    (hfound : (findEntryIdx es key).isSome = true) :
    insertTree conf fuel m key value false = .error .keyExists ∧
    insertTxn conf fuel m key value false = m ∧
    ∀ fuel₂ k, getTree fuel₂ (insertTxn conf fuel m key value false) k =
      getTree fuel₂ m k := by
  obtain ⟨i, hi⟩ := Option.isSome_iff_exists.mp hfound
  have herr : insertTree conf fuel m key value false = .error .keyExists := by
    simp [insertTree, hroot, hsearch, hi]
  have htxn : insertTxn conf fuel m key value false = m := by
    simp [insertTxn, herr]
  exact ⟨herr, htxn, fun fuel₂ k => by rw [htxn]⟩

theorem claim_C1_witness :
    insertTree defaultTreeConf 1 memW1 5 [98] false = .error .keyExists ∧
    insertTxn defaultTreeConf 1 memW1 5 [98] false = memW1 ∧
    ∀ fuel₂ k, getTree fuel₂ (insertTxn defaultTreeConf 1 memW1 5 [98] false) k =
      getTree fuel₂ memW1 k :=
  claim_C1_insert_duplicate defaultTreeConf 1 memW1 5 [98]
    (.recNode .lonelyRoot [⟨5, some [102, 111, 111], none⟩] none) [] 1
    .lonelyRoot [⟨5, some [102, 111, 111], none⟩] none rfl rfl (by decide)

/-- C2 (amended): `batch_insert` raises OrderViolation when, at some
step, the key is ≤ the biggest key of the current target leaf; in
particular, whenever the leaf where the first key would live is
non-empty and the first key is ≤ that leaf's biggest key, the whole
batch fails with OrderViolation.  (The original claim — failure
whenever the first key is ≤ *some* key already in the tree — is
refuted by the counterexample: the check only sees the target
leaf.) -/
theorem claim_C2_batch_order_violation (conf : TreeConf) (fuel : Nat)
    (m : Mem) (key : Nat) (value : List Nat) (rest : List (Nat × List Nat))
    (root : DNode) (path : List PathE) (leafPage : Nat) (t : NodeType)
    (es : List RecordE) (nx : Option Nat) (biggest : RecordE)
    (hroot : getNode m m.rootPage = some root)
    (hsearch : searchPath m fuel key (m.rootPage, root) [] =
      some (path, leafPage, .recNode t es nx))
    (hlast : es.getLast? = some biggest) (hle : key ≤ biggest.key) :
    batchInsert conf fuel m ((key, value) :: rest) = .error .orderViolation := by
  simp [batchInsert, batchInsertGo, hroot, hsearch, hlast, hle]

theorem claim_C2_witness :
    batchInsert conf4 10 memC2 [(1, [99])] = .error .orderViolation :=
  claim_C2_batch_order_violation conf4 10 memC2 1 [99] []
    (.refNode .root [⟨5, 1, 2⟩]) [(3, .root, [⟨5, 1, 2⟩])] 1 .leaf
    [⟨1, some [49], none⟩, ⟨2, some [50], none⟩] (some 2) ⟨2, some [50], none⟩
    rfl rfl rfl (by norm_num)

/-- C2 counterexample: in the tree {1, 2, 5, 6} (order 4: leaf {1,2},
leaf {5,6}, Root separator 5 — the state reached by inserting
1, 2, 5, 6), `batch_insert([(3, "3")])` has first key 3 ≤ 5, a key
already stored in the non-empty tree, yet it succeeds — no
OrderViolation — and inserts key 3: the check only compares against
the biggest key of the leaf where 3 would live ({1, 2}). -/
theorem claim_C2_counterexample :
    (batchInsert conf4 10 memC2 [(3, [51])]).isOk = true ∧
    getTree 10 memC2 5 = some [53] ∧ (3 : Nat) ≤ 5 ∧
    (match batchInsert conf4 10 memC2 [(3, [51])] with
      | .ok m₁ => getTree 10 m₁ 3
      | .error _ => none) = some [51] :=
  ⟨rfl, rfl, by norm_num, rfl⟩

theorem iterSliceGo_flatten (n : Nat) (hn : 0 < n) :
    ∀ (fuel : Nat) (l : List Nat), l.length ≤ fuel →
      (iterSliceGo n fuel l).flatten = l := by
  intro fuel
  induction fuel with
  | zero =>
    intro l hl
    have : l = [] := List.length_eq_zero.mp (by omega)
    simp [this, iterSliceGo]
  | succ fuel ih =>
    intro l hl
    cases l with
    | nil => simp [iterSliceGo]
    | cons b bs =>
      simp only [iterSliceGo, List.flatten_cons]
      rw [ih ((b :: bs).drop n)
        (by simp only [List.length_drop, List.length_cons] at hl ⊢; omega)]
      exact List.take_append_drop n (b :: bs)

theorem iterSliceGo_length_le (n : Nat) (hn : 0 < n) :
    ∀ (fuel : Nat) (l : List Nat), l.length ≤ fuel →
      (iterSliceGo n fuel l).length ≤ l.length := by
  intro fuel
  induction fuel with
  | zero => intro l hl; simp [iterSliceGo]
  | succ fuel ih =>
    intro l hl
    cases l with
    | nil => simp [iterSliceGo]
    | cons b bs =>
      simp only [iterSliceGo, List.length_cons]
      have hd := ih ((b :: bs).drop n)
        (by simp only [List.length_drop, List.length_cons] at hl ⊢; omega)
      simp only [List.length_drop, List.length_cons] at hd
      omega

theorem iterSlice_ne_nil (n : Nat) (l : List Nat) (hl : l ≠ []) :
    iterSlice l n ≠ [] := by
  cases l with
  | nil => exact absurd rfl hl
  | cons b bs => simp [iterSlice, iterSliceGo]

/-- With an empty freelist, `next_available_page` grows `last_page`. -/
theorem nextAvailablePage_empty_freelist (fuel : Nat) (m : Mem)
    (h : m.freelistStartPage = 0) :
    nextAvailablePage fuel m =
      (m.lastPage + 1, { m with lastPage := m.lastPage + 1 }) := by
  simp [nextAvailablePage, popFromFreelist, traverseFreeList, h]

/-- The chunk-writing loop only touches pages ≥ the current allocation
frontier (empty freelist). -/
theorem createOverflowGo_pages_lt (fuel : Nat) :
    ∀ (chunks : List (List Nat)) (m : Mem) (p q : Nat),
      m.freelistStartPage = 0 → m.lastPage = p → q < p →
      (createOverflowGo fuel m chunks p).pages q = m.pages q := by
  intro chunks
  induction chunks with
  | nil => intro m p q _ _ _; rfl
  | cons c rest ih =>
    intro m p q hfl hlp hq
    subst hlp
    cases rest with
    | nil =>
      simp only [createOverflowGo, setNode]
      simp [Nat.ne_of_lt hq]
    | cons c₂ rest₂ =>
      simp only [createOverflowGo, nextAvailablePage_empty_freelist _ _ hfl]
      rw [ih (setNode { m with lastPage := m.lastPage + 1 } m.lastPage
          (.ovNode c (some (m.lastPage + 1)))) (m.lastPage + 1) q
        (by simp [setNode, hfl]) (by simp [setNode]) (by omega)]
      simp [setNode, Nat.ne_of_lt hq]

/-- Reading back a freshly written chain returns the concatenation of
its chunks. -/
theorem readFromOverflow_createOverflowGo (fuel : Nat) :
    ∀ (chunks : List (List Nat)) (m : Mem) (p : Nat),
      m.freelistStartPage = 0 → m.lastPage = p → chunks ≠ [] →
      readFromOverflow (createOverflowGo fuel m chunks p) chunks.length p =
        some chunks.flatten := by
  intro chunks
  induction chunks with
  | nil => intro m p _ _ h; exact absurd rfl h
  | cons c rest ih =>
    intro m p hfl hlp _
    subst hlp
    cases rest with
    | nil =>
      simp [createOverflowGo, readFromOverflow, getNode, setNode]
    | cons c₂ rest₂ =>
      simp only [createOverflowGo, nextAvailablePage_empty_freelist _ _ hfl]
      set m₂ : Mem := setNode { m with lastPage := m.lastPage + 1 } m.lastPage
        (.ovNode c (some (m.lastPage + 1))) with hm₂
      have hfl₂ : m₂.freelistStartPage = 0 := by simp [hm₂, setNode, hfl]
      have hlp₂ : m₂.lastPage = m.lastPage + 1 := by simp [hm₂, setNode]
      have hrec := ih m₂ (m.lastPage + 1) hfl₂ hlp₂ (by simp)
      have hp : (createOverflowGo fuel m₂ (c₂ :: rest₂) (m.lastPage + 1)).pages
          m.lastPage = some (.ovNode c (some (m.lastPage + 1))) := by
        rw [createOverflowGo_pages_lt fuel (c₂ :: rest₂) m₂ (m.lastPage + 1)
          m.lastPage hfl₂ hlp₂ (by omega), hm₂]
        simp [setNode]
      rw [show (c :: c₂ :: rest₂).length = (c₂ :: rest₂).length + 1 from rfl]
      generalize hL : (c₂ :: rest₂).length = L at hrec ⊢
      simp only [readFromOverflow, getNode, hp]
      rw [hrec]
      rfl

theorem readFromOverflow_mono (m : Mem) :
    ∀ (fuel fuel₂ page : Nat) (r : List Nat), fuel ≤ fuel₂ →
      readFromOverflow m fuel page = some r →
      readFromOverflow m fuel₂ page = some r := by
  intro fuel
  induction fuel with
  | zero => intro fuel₂ page r _ h; exact absurd h (by simp [readFromOverflow])
  | succ fuel ih =>
    intro fuel₂ page r hle h
    obtain ⟨f₂, rfl⟩ : ∃ f₂, fuel₂ = f₂ + 1 := ⟨fuel₂ - 1, by omega⟩
    simp only [readFromOverflow] at h ⊢
    cases hg : getNode m page with
    | none => rw [hg] at h; simp at h
    | some nd =>
      rw [hg] at h
      cases nd with
      | ovNode data nextPage =>
        cases nextPage with
        | none => simpa using h
        | some np =>
          simp only at h ⊢
          cases hr : readFromOverflow m fuel np with
          | none => rw [hr] at h; simp at h
          | some rest =>
            rw [hr] at h
            rw [ih f₂ np rest (by omega) hr]
            simpa using h
      | recNode t es nx => simp at h
      | refNode t es => simp at h
      | flNode nx => simp at h

/-- C3: overflow chain round-trip.  For every non-empty byte string
and every store with an empty freelist, `_create_overflow` splits the
value into `max_payload = page_size - 8` sized chunks, writes one
Overflow node per chunk linked through `next_page`, and
`_read_from_overflow` on the returned first page reconstructs the
value exactly (reading fuel `value.length` suffices: each chunk holds
at least one byte). -/
theorem claim_C3_overflow_roundtrip (conf : TreeConf) (flFuel : Nat)
    (m : Mem) (value : List Nat) (hfl : m.freelistStartPage = 0)
    (hP : 8 < conf.pageSize) (hne : value ≠ []) :
    readFromOverflow (createOverflow conf flFuel m value).2 value.length
      (createOverflow conf flFuel m value).1 = some value := by
  have hn : 0 < maxPayload conf := by
    simp only [maxPayload, PAGE_REFERENCE_BYTES]
    omega
  have hvl : 0 < value.length := List.length_pos.mpr hne
  simp only [createOverflow, nextAvailablePage_empty_freelist _ _ hfl]
  set m₁ : Mem := { m with lastPage := m.lastPage + 1 } with hm₁
  set chunks := iterSlice value (maxPayload conf) with hchunks
  have hcn : chunks ≠ [] := iterSlice_ne_nil _ _ hne
  have hlen : chunks.length ≤ value.length :=
    iterSliceGo_length_le (maxPayload conf) hn value.length value (le_refl _)
  have hread := readFromOverflow_createOverflowGo flFuel chunks m₁
    (m.lastPage + 1) (by simp [hm₁, hfl]) (by simp [hm₁]) hcn
  have hflat : chunks.flatten = value :=
    iterSliceGo_flatten (maxPayload conf) hn value.length value (le_refl _)
  rw [hflat] at hread
  exact readFromOverflow_mono _ chunks.length value.length _ value hlen hread

theorem claim_C3_witness :
    (⟨16, 4, 8, 8⟩ : TreeConf).pageSize = 16 ∧
    readFromOverflow
      (createOverflow ⟨16, 4, 8, 8⟩ 5
        ⟨fun _ => none, 0, 0, 1⟩ (List.range 20)).2
      (List.range 20).length
      (createOverflow ⟨16, 4, 8, 8⟩ 5
        ⟨fun _ => none, 0, 0, 1⟩ (List.range 20)).1 = some (List.range 20) :=
  ⟨rfl, claim_C3_overflow_roundtrip ⟨16, 4, 8, 8⟩ 5 ⟨fun _ => none, 0, 0, 1⟩
    (List.range 20) rfl (by norm_num) (by decide)⟩

theorem pairwiseScan_mem (key : Nat) :
    ∀ (l : List RefE) (cp : Nat), pairwiseScan key l = some cp →
      ∃ a ∈ l, cp = a.after := by
  intro l
  induction l with
  | nil => intro cp h; simp [pairwiseScan] at h
  | cons a l ih =>
    intro cp h
    cases l with
    | nil => simp [pairwiseScan] at h
    | cons b rest =>
      simp only [pairwiseScan] at h
      by_cases hc : a.key ≤ key ∧ key < b.key
      · rw [if_pos hc] at h
        exact ⟨a, by simp, by injection h with h; omega⟩
      · rw [if_neg hc] at h
        obtain ⟨x, hx, hcp⟩ := ih cp h
        exact ⟨x, List.mem_cons_of_mem a hx, hcp⟩

theorem pairwiseScan_some (key : Nat) :
    ∀ (l : List RefE) (a : RefE), a.key ≤ key →
      key < ((a :: l).getLast (List.cons_ne_nil a l)).key →
      (pairwiseScan key (a :: l)).isSome = true := by
  intro l
  induction l with
  | nil =>
    intro a ha hlast
    simp [List.getLast_singleton] at hlast
    omega
  | cons b rest ih =>
    intro a ha hlast
    simp only [pairwiseScan]
    by_cases hc : a.key ≤ key ∧ key < b.key
    · rw [if_pos hc]; rfl
    · rw [if_neg hc]
      have hb : b.key ≤ key := by
        rcases Nat.lt_or_ge key b.key with h | h
        · exact absurd ⟨ha, h⟩ hc
        · exact h
      have hlast' : key < ((b :: rest).getLast (List.cons_ne_nil b rest)).key := by
        rw [List.getLast_cons (List.cons_ne_nil b rest)] at hlast
        exact hlast
      exact ih b hb hlast'

theorem pairwise_key_mono (l : List RefE)
    (hs : List.Pairwise (fun a b => a.key < b.key) l) :
    ∀ i j (hi : i < l.length) (hj : j < l.length), i ≤ j →
      (l.get ⟨i, hi⟩).key ≤ (l.get ⟨j, hj⟩).key := by
  intro i j hi hj hij
  rcases Nat.eq_or_lt_of_le hij with rfl | h
  · exact le_refl _
  · have := (List.pairwise_iff_getElem.mp hs) i j hi hj h
    simpa [List.get_eq_getElem] using le_of_lt this

theorem pairwiseScan_bracket (key : Nat) :
    ∀ (l : List RefE), List.Pairwise (fun a b => a.key < b.key) l →
      ∀ (i : Nat) (hi : i + 1 < l.length),
      (l.get ⟨i, by omega⟩).key ≤ key → key < (l.get ⟨i + 1, hi⟩).key →
      pairwiseScan key l = some (l.get ⟨i, by omega⟩).after := by
  intro l
  induction l with
  | nil => intro _ i hi; simp at hi
  | cons a l ih =>
    intro hs i hi hlo hhi
    cases l with
    | nil => simp at hi
    | cons b rest =>
      cases i with
      | zero =>
        simp only [pairwiseScan]
        rw [if_pos ⟨by simpa using hlo, by simpa using hhi⟩]
        simp
      | succ j =>
        have htl : List.Pairwise (fun a b => a.key < b.key) (b :: rest) :=
          (List.pairwise_cons.mp hs).2
        have hj : j + 1 < (b :: rest).length := by
          simpa using hi
        have hlo' : ((b :: rest).get ⟨j, by omega⟩).key ≤ key := by
          simpa using hlo
        have hhi' : key < ((b :: rest).get ⟨j + 1, hj⟩).key := by
          simpa using hhi
        have hb : b.key ≤ key :=
          le_trans (pairwise_key_mono (b :: rest) htl 0 j (by omega) (by omega)
            (by omega)) hlo'
        simp only [pairwiseScan]
        rw [if_neg (by rintro ⟨-, hk⟩; omega)]
        have := ih htl j hj hlo' hhi'
        rw [this]
        simp

theorem head_key_le_getLast :
    ∀ (xs : List RefE) (x : RefE),
      List.Pairwise (fun a b => a.key < b.key) (x :: xs) →
      x.key ≤ ((x :: xs).getLast (List.cons_ne_nil x xs)).key := by
  intro xs
  induction xs with
  | nil => intro x _; simp [List.getLast_singleton]
  | cons b rest ih =>
    intro x hs
    rw [List.getLast_cons (List.cons_ne_nil b rest)]
    have hxb : x.key < b.key := (List.pairwise_cons.mp hs).1 b (by simp)
    have := ih b (List.pairwise_cons.mp hs).2
    omega

theorem selectChild_head_lt (x : RefE) (xs : List RefE) (key : Nat)
    (h : key < x.key) : selectChild (x :: xs) key = some x.before := by
  simp [selectChild, h]

theorem selectChild_last_le (x : RefE) (xs : List RefE) (key : Nat)
    (hs : List.Pairwise (fun a b => a.key < b.key) (x :: xs))
    (h : ((x :: xs).getLast (List.cons_ne_nil x xs)).key ≤ key) :
    selectChild (x :: xs) key =
      some ((x :: xs).getLast (List.cons_ne_nil x xs)).after := by
  have hx := head_key_le_getLast xs x hs
  have hnlt : ¬ key < x.key := by omega
  simp [selectChild, hnlt, h]

theorem selectChild_bracket (l : List RefE) (key : Nat)
    (hs : List.Pairwise (fun a b => a.key < b.key) l)
    (i : Nat) (hi : i + 1 < l.length)
    (hlo : (l.get ⟨i, by omega⟩).key ≤ key)
    (hhi : key < (l.get ⟨i + 1, hi⟩).key) :
    selectChild l key = some (l.get ⟨i, by omega⟩).after := by
  cases l with
  | nil => simp at hi
  | cons x xs =>
    have h0 : x.key ≤ key := by
      have hx0 : ((x :: xs).get ⟨0, by simp⟩).key ≤
          ((x :: xs).get ⟨i, by omega⟩).key :=
        pairwise_key_mono (x :: xs) hs 0 i (by simp) (by omega) (by omega)
      have hgx : (x :: xs).get ⟨0, by simp⟩ = x := rfl
      rw [hgx] at hx0
      omega
    have hlastidx : (x :: xs).length - 1 < (x :: xs).length := by simp
    have hlast : key < ((x :: xs).getLast (List.cons_ne_nil x xs)).key := by
      have hle : ((x :: xs).get ⟨i + 1, hi⟩).key ≤
          ((x :: xs).get ⟨(x :: xs).length - 1, hlastidx⟩).key :=
        pairwise_key_mono (x :: xs) hs (i + 1) ((x :: xs).length - 1) hi hlastidx
          (by omega)
      have hconv : (x :: xs).get ⟨(x :: xs).length - 1, hlastidx⟩ =
          (x :: xs).getLast (List.cons_ne_nil x xs) := by
        rw [List.getLast_eq_getElem, List.get_eq_getElem]
      rw [hconv] at hle
      omega
    have hnlt : ¬ key < x.key := by omega
    have hnle : ¬ ((x :: xs).getLast (List.cons_ne_nil x xs)).key ≤ key := by
      omega
    simp only [selectChild]
    rw [if_neg hnlt, if_neg hnle]
    exact pairwiseScan_bracket key (x :: xs) hs i hi hlo hhi

theorem selectChild_isSome (refs : List RefE) (key : Nat) (hne : refs ≠ [])
    (hs : List.Pairwise (fun a b => a.key < b.key) refs) :
    (selectChild refs key).isSome = true := by
  cases refs with
  | nil => exact absurd rfl hne
  | cons x xs =>
    by_cases h1 : key < x.key
    · rw [selectChild_head_lt x xs key h1]; rfl
    · by_cases h2 : ((x :: xs).getLast (List.cons_ne_nil x xs)).key ≤ key
      · rw [selectChild_last_le x xs key hs h2]; rfl
      · have hx : x.key ≤ key := by omega
        have hlast : key < ((x :: xs).getLast (List.cons_ne_nil x xs)).key := by
          omega
        simp only [selectChild]
        rw [if_neg h1, if_neg h2]
        exact pairwiseScan_some key xs x hx hlast

theorem selectChild_mem_childPages (refs : List RefE) (key cp : Nat)
    (h : selectChild refs key = some cp) : cp ∈ childPages refs := by
  cases refs with
  | nil => simp [selectChild] at h
  | cons x xs =>
    simp only [selectChild] at h
    by_cases h1 : key < x.key
    · rw [if_pos h1] at h
      injection h with h
      simp [childPages, ← h]
    · rw [if_neg h1] at h
      by_cases h2 : ((x :: xs).getLast (List.cons_ne_nil x xs)).key ≤ key
      · rw [if_pos h2] at h
        injection h with h
        have hmem : (x :: xs).getLast (List.cons_ne_nil x xs) ∈ x :: xs :=
          List.getLast_mem _
        simp only [childPages, List.mem_cons]
        right
        rw [← h]
        exact List.mem_map_of_mem RefE.after hmem
      · rw [if_neg h2] at h
        obtain ⟨a, ha, hcp⟩ := pairwiseScan_mem key (x :: xs) cp h
        simp only [childPages, List.mem_cons]
        right
        rw [hcp]
        exact List.mem_map_of_mem RefE.after ha

theorem isTree_getNode (m : Mem) (page h : Nat) (ht : IsTree m page h) :
    ∃ nd, getNode m page = some nd := by
  cases ht with
  | leaf _ t es nx hget => exact ⟨_, hget⟩
  | node _ t refs _ hget => exact ⟨_, hget⟩

/-- On a well-formed subtree of height `h`, `_search_in_tree` with
more than `h` fuel always reaches a record node (Leaf or
LonelyRoot). -/
theorem searchPath_reaches_record (hh : Nat) :
    ∀ (m : Mem) (page : Nat), IsTree m page hh →
      ∀ nd, getNode m page = some nd → ∀ fuel, hh < fuel → ∀ key path₀,
      ∃ path lp t es nx, searchPath m fuel key (page, nd) path₀ =
        some (path, lp, .recNode t es nx) := by
  induction hh with
  | zero =>
    intro m page ht nd hnd fuel hf key path₀
    cases ht with
    | leaf _ t es nx hget =>
      rw [hnd] at hget
      have hnd' : nd = .recNode t es nx := Option.some_inj.mp hget
      subst hnd'
      obtain ⟨f, rfl⟩ : ∃ f, fuel = f + 1 := ⟨fuel - 1, by omega⟩
      exact ⟨path₀, page, t, es, nx, by simp [searchPath]⟩
  | succ hh ih =>
    intro m page ht nd hnd fuel hf key path₀
    cases ht with
    | node _ t refs _ hget hne hsorted hchildren =>
      rw [hnd] at hget
      have hnd' : nd = .refNode t refs := Option.some_inj.mp hget
      subst hnd'
      obtain ⟨f, rfl⟩ : ∃ f, fuel = f + 1 := ⟨fuel - 1, by omega⟩
      obtain ⟨cp, hcp⟩ := Option.isSome_iff_exists.mp
        (selectChild_isSome refs key hne hsorted)
      have hchild := hchildren cp (selectChild_mem_childPages refs key cp hcp)
      obtain ⟨cnd, hcnd⟩ := isTree_getNode m cp hh hchild
      obtain ⟨path, lp, t', es, nx, hrec⟩ :=
        ih m cp hchild cnd hcnd f (by omega) key ((page, t, refs) :: path₀)
      exact ⟨path, lp, t', es, nx, by simp [searchPath, hcp, hcnd, hrec]⟩

/-- The tree of `memC2` is a well-formed two-level tree. -/
theorem isTree_memC2 : IsTree memC2 3 1 := by
  refine IsTree.node 3 .root [⟨5, 1, 2⟩] 0 rfl (by simp) (by simp) ?_
  intro q hq
  simp only [childPages, List.map_cons, List.map_nil, List.mem_cons,
    List.mem_singleton] at hq
  rcases hq with h | h | h
  · subst h; exact IsTree.leaf 1 .leaf _ _ rfl
  · subst h; exact IsTree.leaf 2 .leaf _ _ rfl
  · simp at h

/-- C7: `_search_in_tree` on a Root/Internal node with strictly
ascending references `r₁ … rₙ` (n ≥ 1) descends into `r₁.before` when
`key < r₁.key`, into `rₙ.after` when `rₙ.key ≤ key`, and otherwise
into `rᵢ.after` for the (unique, by sortedness) `i` with
`rᵢ.key ≤ key < rᵢ₊₁.key`; a child page is always chosen (the
assertion never fails), and on a well-formed tree of height `h` the
recursion terminates (with fuel > `h`) at the Leaf or LonelyRoot where
the key would live. -/
theorem claim_C7_search_in_tree (refs : List RefE) (key : Nat)
    (hne : refs ≠ [])
    (hsorted : List.Pairwise (fun a b => a.key < b.key) refs) :
    (key < (refs.head hne).key →
      selectChild refs key = some (refs.head hne).before) ∧
    ((refs.getLast hne).key ≤ key →
      selectChild refs key = some (refs.getLast hne).after) ∧
    (∀ (i : Nat) (hi : i + 1 < refs.length),
      (refs.get ⟨i, by omega⟩).key ≤ key →
      key < (refs.get ⟨i + 1, hi⟩).key →
      selectChild refs key = some (refs.get ⟨i, by omega⟩).after) ∧
    (selectChild refs key).isSome = true ∧
    (∀ (m : Mem) (page h fuel : Nat) (nd : DNode), IsTree m page h →
      getNode m page = some nd → h < fuel → ∀ path₀,
      ∃ path lp t es nx, searchPath m fuel key (page, nd) path₀ =
        some (path, lp, .recNode t es nx)) := by
  cases refs with
  | nil => exact absurd rfl hne
  | cons x xs =>
    refine ⟨?_, ?_, ?_, selectChild_isSome _ key hne hsorted,
      fun m page h fuel nd ht hnd hf path₀ =>
        searchPath_reaches_record h m page ht nd hnd fuel hf key path₀⟩
    · intro h
      simpa using selectChild_head_lt x xs key (by simpa using h)
    · intro h
      simpa using selectChild_last_le x xs key hsorted (by simpa using h)
    · intro i hi hlo hhi
      exact selectChild_bracket (x :: xs) key hsorted i hi hlo hhi

theorem claim_C7_witness :
    selectChild [⟨5, 1, 2⟩] 3 = some 1 ∧
    (∃ path lp t es nx,
      searchPath memC2 2 3 (3, .refNode .root [⟨5, 1, 2⟩]) [] =
        some (path, lp, DNode.recNode t es nx)) := by
  have h := claim_C7_search_in_tree [⟨5, 1, 2⟩] 3 (by simp) (by simp)
  refine ⟨?_, h.2.2.2.2 memC2 3 1 2 (.refNode .root [⟨5, 1, 2⟩]) isTree_memC2
    rfl (by norm_num) []⟩
  have := h.1 (by norm_num)
  simpa using this

theorem insortRef_eq (e : RefE) : ∀ l : List RefE,
    insortRef e l = l.takeWhile (fun x => !decide (e.key < x.key)) ++
      e :: l.dropWhile (fun x => !decide (e.key < x.key)) := by
  intro l
  induction l with
  | nil => rfl
  | cons x xs ih =>
    by_cases h : e.key < x.key
    · simp [insortRef, List.takeWhile_cons, List.dropWhile_cons, h]
    · simp [insortRef, List.takeWhile_cons, List.dropWhile_cons, h, ih]

theorem indexOfKey_append (k : Nat) (y : RefE) (d : List RefE)
    (hy : y.key = k) :
    ∀ t : List RefE, (∀ x ∈ t, x.key ≠ k) →
      indexOfKey k (t ++ y :: d) = t.length := by
  intro t
  induction t with
  | nil => intro _; simp [indexOfKey, hy]
  | cons x xs ih =>
    intro hx
    have hxk : x.key ≠ k := hx x (by simp)
    simp only [List.cons_append, indexOfKey, if_neg hxk, List.length_cons]
    show indexOfKey k (xs ++ y :: d) + 1 = xs.length + 1
    rw [ih (fun z hz => hx z (List.mem_cons_of_mem x hz))]

theorem get2_append_left {α : Type} :
    ∀ (t rest : List α) (k : Nat), k < t.length →
      (t ++ rest).get? k = t.get? k := by
  intro t
  induction t with
  | nil => intro rest k h; simp at h
  | cons x xs ih =>
    intro rest k h
    cases k with
    | zero => rfl
    | succ j => simpa using ih rest j (by simpa using h)

theorem get2_append_right {α : Type} :
    ∀ (t rest : List α) (k : Nat), (t ++ rest).get? (t.length + k) = rest.get? k := by
  intro t
  induction t with
  | nil => intro rest k; simp
  | cons x xs ih =>
    intro rest k
    have : (x :: xs).length + k = (xs.length + k) + 1 := by simp; omega
    rw [this]
    simpa using ih rest k

theorem set_append_left {α : Type} :
    ∀ (t rest : List α) (k : Nat) (v : α), k < t.length →
      (t ++ rest).set k v = t.set k v ++ rest := by
  intro t
  induction t with
  | nil => intro rest k v h; simp at h
  | cons x xs ih =>
    intro rest k v h
    cases k with
    | zero => rfl
    | succ j => simpa using ih rest j v (by simpa using h)

theorem set_append_right {α : Type} :
    ∀ (t rest : List α) (k : Nat) (v : α),
      (t ++ rest).set (t.length + k) v = t ++ rest.set k v := by
  intro t
  induction t with
  | nil => intro rest k v; simp
  | cons x xs ih =>
    intro rest k v
    have : (x :: xs).length + k = (xs.length + k) + 1 := by simp; omega
    rw [this]
    simp only [List.cons_append, List.set_cons_succ, ih rest k v]

theorem set_length_sub_one {α : Type} :
    ∀ (l : List α) (v : α), l ≠ [] →
      l.set (l.length - 1) v = l.dropLast ++ [v] := by
  intro l
  induction l with
  | nil => intro v h; exact absurd rfl h
  | cons x xs ih =>
    intro v _
    cases xs with
    | nil => rfl
    | cons y rest =>
      have : (x :: y :: rest).length - 1 = ((y :: rest).length - 1) + 1 := by
        simp
      rw [this]
      simp only [List.set_cons_succ, List.dropLast_cons₂, List.cons_append,
        List.cons.injEq, true_and]
      exact ih v (by simp)

theorem get2_length_sub_one {α : Type} :
    ∀ (l : List α) (h : l ≠ []), l.get? (l.length - 1) = some (l.getLast h) := by
  intro l
  induction l with
  | nil => intro h; exact absurd rfl h
  | cons x xs ih =>
    intro _
    cases xs with
    | nil => rfl
    | cons y rest =>
      have h1 : (x :: y :: rest).length - 1 = ((y :: rest).length - 1) + 1 := by
        simp
      rw [h1, List.getLast_cons (List.cons_ne_nil y rest)]
      simpa using ih (by simp)

theorem dropWhile_head_false {α : Type} (p : α → Bool) :
    ∀ (l : List α) (y : α) (d₂ : List α), l.dropWhile p = y :: d₂ →
      p y = false := by
  intro l
  induction l with
  | nil => intro y d₂ h; simp [List.dropWhile] at h
  | cons x xs ih =>
    intro y d₂ h
    rw [List.dropWhile_cons] at h
    by_cases hp : p x
    · rw [if_pos hp] at h
      exact ih y d₂ h
    · rw [if_neg hp] at h
      injection h with h1 _
      rw [← h1]
      exact Bool.not_eq_true _ ▸ (by simpa using hp)

theorem pairwise_keys_congr (l₁ l₂ : List RefE)
    (hmap : l₁.map RefE.key = l₂.map RefE.key)
    (h : List.Pairwise (fun a b => a.key < b.key) l₁) :
    List.Pairwise (fun a b => a.key < b.key) l₂ := by
  have h₁ : (l₁.map RefE.key).Pairwise (· < ·) := List.pairwise_map.mpr h
  rw [hmap] at h₁
  exact List.pairwise_map.mp h₁

/-- What `ReferenceNode.insert_entry` computes on a list with no entry
of the new key: the new entry lands between the prefix of smaller keys
and the suffix of larger ones; the prefix's last `after` becomes the
new entry's `before`, the suffix's first `before` becomes the new
entry's `after`. -/
theorem refNodeInsertEntry_split (l : List RefE) (e : RefE) (t d : List RefE)
    (ht : l.takeWhile (fun x => !decide (e.key < x.key)) = t)
    (hd : l.dropWhile (fun x => !decide (e.key < x.key)) = d)
    (hfresh : ∀ x ∈ t, x.key ≠ e.key) :
    refNodeInsertEntry l e = insertFixupResult t d e := by
  simp only [insertFixupResult]
  rcases List.eq_nil_or_concat t with rfl | ⟨t₀, a, rfl⟩
  · have hins : insortRef e l = [] ++ e :: d := by
      rw [insortRef_eq e l, ht, hd]
    have hidx : indexOfKey e.key ([] ++ e :: d) = 0 := by
      simp [indexOfKey]
    cases d with
    | nil =>
      simp only [refNodeInsertEntry, hins, hidx]
      simp
    | cons y d₂ =>
      simp only [refNodeInsertEntry, hins, hidx]
      simp [List.set]
  · simp only [List.concat_eq_append] at ht hfresh ⊢
    have hins : insortRef e l = (t₀ ++ [a]) ++ e :: d := by
      rw [insortRef_eq e l, ht, hd]
    have hane : t₀ ++ [a] ≠ [] := by simp
    have hidx : indexOfKey e.key ((t₀ ++ [a]) ++ e :: d) = t₀.length + 1 := by
      rw [indexOfKey_append e.key e d rfl (t₀ ++ [a]) hfresh]
      simp
    have hget1 : ((t₀ ++ [a]) ++ e :: d).get? (t₀.length + 1 - 1) = some a := by
      have h0 : t₀.length + 1 - 1 = t₀.length := rfl
      rw [h0, get2_append_left _ _ _ (by simp)]
      have h1 := get2_append_right t₀ [a] 0
      simp only [Nat.add_zero] at h1
      rw [h1]
      rfl
    have hset1 : ((t₀ ++ [a]) ++ e :: d).set (t₀.length + 1 - 1)
        { a with after := e.before } =
        (t₀ ++ [{ a with after := e.before }]) ++ e :: d := by
      have h0 : t₀.length + 1 - 1 = t₀.length := rfl
      rw [h0, set_append_left _ _ _ _ (by simp)]
      have := set_append_right t₀ [a] 0 { a with after := e.before }
      simp only [List.set_cons_zero] at this
      rw [← this]
      simp
    have hdl : (t₀ ++ [a]).dropLast = t₀ := List.dropLast_concat ..
    have hgl : (t₀ ++ [a]).getLast hane = a := List.getLast_concat ..
    cases d with
    | nil =>
      have hget2 : ((t₀ ++ [{ a with after := e.before }]) ++ e :: ([] : List RefE)).get?
          (t₀.length + 1 + 1) = none := by
        have h1 : t₀.length + 1 + 1 = (t₀ ++ [{ a with after := e.before }]).length + 1 := by
          simp
        rw [h1, get2_append_right]
        rfl
      simp only [refNodeInsertEntry, hins, hidx, hget1, hset1]
      rw [if_pos (show 0 < t₀.length + 1 by omega), hget2]
      simp [hdl, hgl, hane]
    | cons y d₂ =>
      have hget2 : ((t₀ ++ [{ a with after := e.before }]) ++ e :: y :: d₂).get?
          (t₀.length + 1 + 1) = some y := by
        have h1 : t₀.length + 1 + 1 = (t₀ ++ [{ a with after := e.before }]).length + 1 := by
          simp
        rw [h1, get2_append_right]
        rfl
      have hset2 : ((t₀ ++ [{ a with after := e.before }]) ++ e :: y :: d₂).set
          (t₀.length + 1 + 1) { y with before := e.after } =
          (t₀ ++ [{ a with after := e.before }]) ++
            e :: { y with before := e.after } :: d₂ := by
        have h1 : t₀.length + 1 + 1 = (t₀ ++ [{ a with after := e.before }]).length + 1 := by
          simp
        rw [h1, set_append_right]
        rfl
      simp only [refNodeInsertEntry, hins, hidx, hget1, hset1]
      rw [if_pos (show 0 < t₀.length + 1 by omega), hget2]
      simp only [hset2]
      simp [hdl, hgl, hane]

theorem chain'_replace_head_before (y : RefE) (w : Nat) (d₂ : List RefE)
    (h : List.Chain' (fun a b => a.after = b.before) (y :: d₂)) :
    List.Chain' (fun a b => a.after = b.before)
      ({ y with before := w } :: d₂) := by
  cases d₂ with
  | nil => simp
  | cons z d₃ =>
    rw [List.chain'_cons] at h ⊢
    exact ⟨h.1, h.2⟩

theorem chain'_replace_last_after (t₀ : List RefE) (a : RefE) (w : Nat)
    (h : List.Chain' (fun a b => a.after = b.before) (t₀ ++ [a])) :
    List.Chain' (fun a b => a.after = b.before)
      (t₀ ++ [{ a with after := w }]) := by
  rw [List.chain'_append] at h ⊢
  refine ⟨h.1, List.chain'_singleton _, ?_⟩
  intro x hx y hy
  simp only [List.head?_cons, Option.mem_some_iff] at hy
  subst hy
  exact h.2.2 x hx a (by simp)

/-- The fixed-up insertion preserves strict key order and the
`refs[i].after == refs[i+1].before` linkage, for any prefix of
smaller-key references and suffix of larger-key references. -/
theorem insertFixup_invariants (t d : List RefE) (e : RefE)
    (hsorted : List.Pairwise (fun a b => a.key < b.key) (t ++ d))
    (hlinked : List.Chain' (fun a b => a.after = b.before) (t ++ d))
    (htk : ∀ x ∈ t, x.key < e.key)
    (hdk : ∀ x ∈ d, e.key < x.key) :
    List.Pairwise (fun a b => a.key < b.key) (insertFixupResult t d e) ∧
    List.Chain' (fun a b => a.after = b.before) (insertFixupResult t d e) := by
  simp only [insertFixupResult]
  have hsorted_ted : List.Pairwise (fun a b => a.key < b.key) (t ++ e :: d) := by
    rw [List.pairwise_append] at hsorted ⊢
    obtain ⟨h1, h2, h3⟩ := hsorted
    refine ⟨h1, List.pairwise_cons.mpr ⟨hdk, h2⟩, ?_⟩
    intro x hx z hz
    rcases List.mem_cons.mp hz with rfl | hz'
    · exact htk x hx
    · exact h3 x hx z hz'
  rcases List.eq_nil_or_concat t with rfl | ⟨t₀, a, rfl⟩
  · cases d with
    | nil => simp
    | cons y d₂ =>
      simp only [dif_pos, List.nil_append] at hsorted_ted hlinked ⊢
      constructor
      · exact pairwise_keys_congr (e :: y :: d₂) _ (by simp) hsorted_ted
      · rw [List.chain'_cons]
        exact ⟨rfl, chain'_replace_head_before y e.after d₂ hlinked⟩
  · simp only [List.concat_eq_append] at hsorted_ted hlinked htk ⊢
    have hane : t₀ ++ [a] ≠ [] := by simp
    rw [dif_neg hane]
    rw [List.dropLast_concat, List.getLast_concat]
    cases d with
    | nil =>
      rw [List.append_nil] at hlinked
      constructor
      · exact pairwise_keys_congr ((t₀ ++ [a]) ++ e :: []) _ (by simp) hsorted_ted
      · rw [List.chain'_append]
        refine ⟨chain'_replace_last_after t₀ a e.before hlinked,
          List.chain'_singleton e, ?_⟩
        intro x hx z hz
        simp only [List.getLast?_concat, Option.mem_some_iff] at hx
        simp only [List.head?_cons, Option.mem_some_iff] at hz
        subst hx; subst hz
        rfl
    | cons y d₂ =>
      rw [List.chain'_append] at hlinked
      obtain ⟨hct, hcd, -⟩ := hlinked
      constructor
      · exact pairwise_keys_congr ((t₀ ++ [a]) ++ e :: y :: d₂) _ (by simp)
          hsorted_ted
      · rw [List.chain'_append]
        refine ⟨chain'_replace_last_after t₀ a e.before hct, ?_, ?_⟩
        · rw [List.chain'_cons]
          exact ⟨rfl, chain'_replace_head_before y e.after d₂ hcd⟩
        · intro x hx z hz
          simp only [List.getLast?_concat, Option.mem_some_iff] at hx
          simp only [List.head?_cons, Option.mem_some_iff] at hz
          subst hx; subst hz
          rfl

/-- C9: for every Root or Internal node whose References are strictly
ascending by key and linked (`refs[i].after == refs[i+1].before`),
`insert_entry` with a Reference whose key differs from all existing
keys leaves the entries strictly ascending and restores the linkage:
the immediate neighbours' `before`/`after` pointers are fixed up to
the new entry's `before` and `after`. -/
theorem claim_C9_reference_insert_entry (l : List RefE) (e : RefE)
    (hs : List.Pairwise (fun a b => a.key < b.key) l)
    (hl : List.Chain' (fun a b => a.after = b.before) l)
    (hfresh : ∀ x ∈ l, x.key ≠ e.key) :
    List.Pairwise (fun a b => a.key < b.key) (refNodeInsertEntry l e) ∧
    List.Chain' (fun a b => a.after = b.before) (refNodeInsertEntry l e) := by
  have hsplit : l.takeWhile (fun x => !decide (e.key < x.key)) ++
      l.dropWhile (fun x => !decide (e.key < x.key)) = l :=
    List.takeWhile_append_dropWhile ..
  have htfresh : ∀ x ∈ l.takeWhile (fun x => !decide (e.key < x.key)),
      x.key ≠ e.key := by
    intro x hx
    exact hfresh x (by rw [← hsplit]; exact List.mem_append_left _ hx)
  have htk : ∀ x ∈ l.takeWhile (fun x => !decide (e.key < x.key)),
      x.key < e.key := by
    intro x hx
    have hqx := List.mem_takeWhile_imp hx
    have hlt : ¬ e.key < x.key := by simpa using hqx
    have hne := htfresh x hx
    omega
  have hdk : ∀ x ∈ l.dropWhile (fun x => !decide (e.key < x.key)),
      e.key < x.key := by
    intro x hx
    cases hdw : l.dropWhile (fun x => !decide (e.key < x.key)) with
    | nil => rw [hdw] at hx; simp at hx
    | cons y d₂ =>
      rw [hdw] at hx
      have hy : e.key < y.key := by
        have := dropWhile_head_false _ l y d₂ hdw
        simpa using this
      rcases List.mem_cons.mp hx with rfl | hx'
      · exact hy
      · have hd : List.Pairwise (fun a b => a.key < b.key) (y :: d₂) := by
          have hs' := hs
          rw [← hsplit, hdw] at hs'
          exact (List.pairwise_append.mp hs').2.1
        have := (List.pairwise_cons.mp hd).1 x hx'
        omega
  have hshape := refNodeInsertEntry_split l e _ _ rfl rfl htfresh
  rw [hshape]
  apply insertFixup_invariants
  · rw [hsplit]; exact hs
  · rw [hsplit]; exact hl
  · exact htk
  · exact hdk

theorem claim_C9_witness :
    List.Pairwise (fun a b => a.key < b.key)
      (refNodeInsertEntry [⟨2, 10, 11⟩, ⟨6, 11, 13⟩] ⟨4, 20, 21⟩) ∧
    List.Chain' (fun a b => a.after = b.before)
      (refNodeInsertEntry [⟨2, 10, 11⟩, ⟨6, 11, 13⟩] ⟨4, 20, 21⟩) :=
  claim_C9_reference_insert_entry [⟨2, 10, 11⟩, ⟨6, 11, 13⟩] ⟨4, 20, 21⟩
    (by decide) (by rw [List.chain'_cons]; exact ⟨rfl, List.chain'_singleton _⟩)
    (by decide)

/-- C6 (amended): for a Root or Internal node, `can_add_entry` is true
exactly when `num_children < m` — that is, when the node is empty (and
`0 < m`) or holds fewer than `m - 1` Reference entries — where
`num_children` is `entries.len + 1` for a non-empty node and `0` for an
empty one.  (The original "fewer than its maximum of m entries" is
refuted by the counterexample at `m - 1` entries.) -/
theorem claim_C6_can_add_entry (conf : TreeConf) (t : NodeType)
    (refs : List RefE) (ht : t = .root ∨ t = .internal) :
    canAddEntry conf (.refNode t refs) = true ↔
      (refs = [] ∧ 0 < conf.order ∨
        refs ≠ [] ∧ refs.length + 1 < conf.order) := by
  rcases ht with h | h <;> subst h <;> cases refs <;>
    simp [canAddEntry, DNode.numChildren, maxChildren, DNode.nodeType]

theorem claim_C6_witness :
    (canAddEntry ⟨4096, 4, 16, 16⟩ (.refNode .root [⟨2, 1, 5⟩]) = true ↔
      (([⟨2, 1, 5⟩] : List RefE) = [] ∧ 0 < (4 : Nat) ∨
        ([⟨2, 1, 5⟩] : List RefE) ≠ [] ∧
          ([⟨2, 1, 5⟩] : List RefE).length + 1 < 4)) :=
  claim_C6_can_add_entry ⟨4096, 4, 16, 16⟩ .root [⟨2, 1, 5⟩] (Or.inl rfl)

/-- C6 counterexample: with `order = m = 4`, a Root holding
`m - 1 = 3` references — "fewer than its maximum of m entries" per the
claim — already has `num_children = 4 = max_children`, so
`can_add_entry` is false. -/
theorem claim_C6_counterexample :
    canAddEntry ⟨4096, 4, 16, 16⟩
      (.refNode .root [⟨2, 1, 5⟩, ⟨4, 5, 6⟩, ⟨6, 6, 7⟩]) = false ∧
    ([⟨2, 1, 5⟩, ⟨4, 5, 6⟩, ⟨6, 6, 7⟩] : List RefE).length <
      (⟨4096, 4, 16, 16⟩ : TreeConf).order := by decide

end UidTree
